import Mathlib

/-!
Verification of the cdb64 constant-database core (hash, writer, reader,
iterator) against its specification.  The Rust sources are shallowly
embedded: byte sinks (`Cursor<Vec<u8>>`) become `List Nat` with an explicit
`writeAt`, positional reads become `readExactAt`, machine integers become
`Nat` with explicit `% 2 ^ 64` (or `% 2 ^ 32`) where the source wraps, and
fallible operations return `Option` or a result pair.
-/

set_option maxRecDepth 1000000

namespace Cdb64

/-! ## Byte-level utilities (util.rs and the little-endian codecs) -/

/-- Little-endian encoding of a `u32` (`u32::to_le_bytes`). -/
def u32le (n : Nat) : List Nat :=
  [n % 256, n / 256 % 256, n / 65536 % 256, n / 16777216 % 256]

/-- Little-endian encoding of a `u64` (`u64::to_le_bytes`). -/
def u64le (n : Nat) : List Nat :=
  [n % 256, n / 256 % 256, n / 65536 % 256, n / 16777216 % 256,
   n / 4294967296 % 256, n / 1099511627776 % 256,
   n / 281474976710656 % 256, n / 72057594037927936 % 256]

/-- Little-endian decoding (`u32::from_le_bytes` / `u64::from_le_bytes`). -/
def leNat (bs : List Nat) : Nat :=
  bs.foldr (fun b acc => b + 256 * acc) 0

theorem u32le_length (n : Nat) : (u32le n).length = 4 := rfl

theorem u64le_length (n : Nat) : (u64le n).length = 8 := rfl

theorem leNat_u32le (n : Nat) : leNat (u32le n) = n % 2 ^ 32 := by
  simp only [u32le, leNat, List.foldr]
  omega

theorem leNat_u64le (n : Nat) : leNat (u64le n) = n % 2 ^ 64 := by
  simp only [u64le, leNat, List.foldr]
  omega

/-- The byte at index `i` of a buffer, reading 0 beyond the end
(the zero-fill behaviour of `Cursor<Vec<u8>>`). -/
def byteAt (buf : List Nat) (i : Nat) : Nat := buf.getD i 0

/-- Seek to `pos` and overwrite with `data`, zero-filling any gap past the
current end: the write path of `Cursor<Vec<u8>>` used by the writer. -/
def writeAt (buf : List Nat) (pos : Nat) (data : List Nat) : List Nat :=
  let padded := buf ++ List.replicate (pos - buf.length) 0
  padded.take pos ++ data ++ padded.drop (pos + data.length)

/-- `read_exact_at`: succeeds iff the requested range lies inside the
buffer (reads of length 0 always succeed, as the retry loop never runs). -/
def readExactAt (buf : List Nat) (off n : Nat) : Option (List Nat) :=
  if n = 0 then some []
  else if off + n ≤ buf.length then some ((buf.drop off).take n)
  else none

theorem writeAt_length (buf : List Nat) (pos : Nat) (data : List Nat) :
    (writeAt buf pos data).length = max buf.length (pos + data.length) := by
  simp only [writeAt, List.length_append, List.length_take, List.length_drop,
    List.length_replicate]
  omega

theorem byteAt_writeAt (buf : List Nat) (pos : Nat) (data : List Nat) (i : Nat) :
    byteAt (writeAt buf pos data) i =
      if pos ≤ i ∧ i < pos + data.length then byteAt data (i - pos)
      else byteAt buf i := by
  simp only [byteAt, writeAt, List.getD_eq_getElem?_getD, List.getElem?_append,
    List.getElem?_take, List.getElem?_drop, List.getElem?_replicate,
    List.length_take, List.length_append, List.length_replicate, List.length_drop]
  rw [show min pos (buf.length + (pos - buf.length)) = pos from by omega]
  split_ifs <;>
    first
      | rfl
      | omega
      | (rw [show (buf[i]? : Option Nat) = none from List.getElem?_eq_none (by omega)]; rfl)
      | (rw [show (buf[i]? : Option Nat) = none from List.getElem?_eq_none (by omega)])
      | (rw [show (data[i - pos]? : Option Nat) = none from List.getElem?_eq_none (by omega)])
      | (rw [show pos + data.length + (i - (pos + data.length)) = i from by omega])

theorem byteAt_writeAt_lt (buf : List Nat) (pos : Nat) (data : List Nat)
    (i : Nat) (h : i < pos) :
    byteAt (writeAt buf pos data) i = byteAt buf i := by
  rw [byteAt_writeAt]
  have : ¬ (pos ≤ i ∧ i < pos + data.length) := by omega
  simp [this]

theorem byteAt_writeAt_inside (buf : List Nat) (pos : Nat) (data : List Nat)
    (j : Nat) (h : j < data.length) :
    byteAt (writeAt buf pos data) (pos + j) = byteAt data j := by
  rw [byteAt_writeAt]
  have hin : pos ≤ pos + j ∧ pos + j < pos + data.length := by omega
  simp [hin]

/-- The buffer contains exactly the bytes `data` starting at `pos`. -/
def hasBytes (buf : List Nat) (pos : Nat) (data : List Nat) : Prop :=
  pos + data.length ≤ buf.length ∧ ∀ j < data.length, byteAt buf (pos + j) = byteAt data j

theorem hasBytes_append (buf : List Nat) (pos : Nat) (a b : List Nat) :
    hasBytes buf pos (a ++ b) ↔
      hasBytes buf pos a ∧ hasBytes buf (pos + a.length) b := by
  constructor
  · rintro ⟨hl, hb⟩
    refine ⟨⟨by simp at hl; omega, fun j hj => ?_⟩, ⟨by simp at hl; omega, fun j hj => ?_⟩⟩
    · have := hb j (by simp; omega)
      rwa [show byteAt (a ++ b) j = byteAt a j from by
        simp [byteAt, List.getD_eq_getElem?_getD, List.getElem?_append, hj]] at this
    · have := hb (a.length + j) (by simp; omega)
      rw [show pos + (a.length + j) = pos + a.length + j from by omega] at this
      rwa [show byteAt (a ++ b) (a.length + j) = byteAt b j from by
        simp [byteAt, List.getD_eq_getElem?_getD, List.getElem?_append]] at this
  · rintro ⟨⟨hl1, hb1⟩, ⟨hl2, hb2⟩⟩
    refine ⟨by simp; omega, fun j hj => ?_⟩
    simp only [List.length_append] at hj
    rcases Nat.lt_or_ge j a.length with hja | hja
    · rw [hb1 j hja]
      simp [byteAt, List.getD_eq_getElem?_getD, List.getElem?_append, hja]
    · have := hb2 (j - a.length) (by omega)
      rw [show pos + a.length + (j - a.length) = pos + j from by omega] at this
      rw [this]
      simp [byteAt, List.getD_eq_getElem?_getD, List.getElem?_append, Nat.not_lt.mpr hja]

theorem hasBytes_writeAt_self (buf : List Nat) (pos : Nat) (data : List Nat) :
    hasBytes (writeAt buf pos data) pos data := by
  refine ⟨by rw [writeAt_length]; omega, fun j hj => byteAt_writeAt_inside buf pos data j hj⟩

/-- Writing at or beyond `pos + data.length` does not disturb `data` at `pos`. -/
theorem hasBytes_writeAt_of_le (buf : List Nat) (pos : Nat) (data : List Nat)
    (pos' : Nat) (data' : List Nat) (h : hasBytes buf pos data)
    (hle : pos + data.length ≤ pos') :
    hasBytes (writeAt buf pos' data') pos data := by
  obtain ⟨hl, hb⟩ := h
  refine ⟨by rw [writeAt_length]; omega, fun j hj => ?_⟩
  rw [byteAt_writeAt_lt _ _ _ _ (by omega)]
  exact hb j hj

/-- Writing a region that ends at or before `pos` does not disturb `data` at `pos`. -/
theorem hasBytes_writeAt_of_ge (buf : List Nat) (pos : Nat) (data : List Nat)
    (pos' : Nat) (data' : List Nat) (h : hasBytes buf pos data)
    (hge : pos' + data'.length ≤ pos) :
    hasBytes (writeAt buf pos' data') pos data := by
  obtain ⟨hl, hb⟩ := h
  refine ⟨by rw [writeAt_length]; omega, fun j hj => ?_⟩
  rw [byteAt_writeAt]
  have : ¬ (pos' ≤ pos + j ∧ pos + j < pos' + data'.length) := by omega
  simp only [this, if_false]
  exact hb j hj

theorem readExactAt_of_hasBytes (buf : List Nat) (pos : Nat) (data : List Nat)
    (h : hasBytes buf pos data) :
    readExactAt buf pos data.length = some data := by
  obtain ⟨hl, hb⟩ := h
  unfold readExactAt
  rcases Nat.eq_zero_or_pos data.length with h0 | hpos
  · simp [h0, (List.length_eq_zero.mp h0).symm]
  · rw [if_neg (by omega), if_pos hl]
    congr 1
    apply List.ext_getElem
    · simp; omega
    · intro i h1 h2
      have hi : i < data.length := by simpa using h2
      have := hb i hi
      simp only [byteAt, List.getD_eq_getElem?_getD] at this
      rw [List.getElem?_eq_getElem (by omega), List.getElem?_eq_getElem hi] at this
      simpa [List.getElem_take, List.getElem_drop] using this

theorem hasBytes_length (buf : List Nat) (pos : Nat) (data : List Nat)
    (h : hasBytes buf pos data) : pos + data.length ≤ buf.length := h.1

/-! ## Hash (hash.rs): the 64-bit DJB variant -/

/-- The initial seed value for the CDB hash function. -/
def CDB_HASH_START_VALUE : Nat := 5381

/-- The hasher state (`CdbHash`), a wrapping 64-bit accumulator. -/
structure CdbHash where
  state : Nat

/-- `CdbHash::new`. -/
def CdbHash.new : CdbHash := ⟨CDB_HASH_START_VALUE⟩

/-- `Hasher::write` for `CdbHash`: per byte,
`hash = ((hash << 5).wrapping_add(hash)) ^ byte` on `u64`. -/
def CdbHash.write (h : CdbHash) (bytes : List Nat) : CdbHash :=
  ⟨bytes.foldl (fun v b => ((v <<< 5) % 2 ^ 64 + v) % 2 ^ 64 ^^^ b) h.state⟩

/-- `Hasher::finish` for `CdbHash`. -/
def CdbHash.finish (h : CdbHash) : Nat := h.state

/-- Hashing a byte string in one shot, as both writer and reader do
(`H::default()` then `write` then `finish`). -/
def hashBytes (key : List Nat) : Nat := (CdbHash.new.write key).finish

theorem hashFold_lt (bytes : List Nat) (s : Nat) (hs : s < 2 ^ 64)
    (h : ∀ b ∈ bytes, b < 2 ^ 64) :
    bytes.foldl (fun v b => ((v <<< 5) % 2 ^ 64 + v) % 2 ^ 64 ^^^ b) s < 2 ^ 64 := by
  induction bytes generalizing s with
  | nil => exact hs
  | cons b bs ih =>
    refine ih _ ?_ (fun x hx => h x (List.mem_cons_of_mem _ hx))
    exact Nat.xor_lt_two_pow (by omega) (h b (List.mem_cons_self _ _))

theorem hashBytes_lt (key : List Nat) (h : ∀ b ∈ key, b < 2 ^ 64) :
    hashBytes key < 2 ^ 64 :=
  hashFold_lt key CDB_HASH_START_VALUE (by unfold CDB_HASH_START_VALUE; omega) h

/-! ## Writer (writer.rs) -/

/-- The size of the CDB header in bytes: 256 tables, each with 2 u64 values. -/
def HEADER_SIZE : Nat := 256 * 8 * 2

/-- The error enum of lib.rs (the Io payload is irrelevant to the model:
the in-memory sink never fails). -/
inductive Error where
  | Io : Error
  | WriterFinalized : Error
  | WriterNotFinalized : Error
deriving DecidableEq, Repr

/-- A recorded `(hash, offset)` entry (struct `Entry` in writer.rs). -/
structure Entry where
  hash_val : Nat
  offset : Nat
deriving DecidableEq, Repr

/-- A directory entry (struct `TableEntry` in cdb.rs). -/
structure TableEntry where
  offset : Nat
  length : Nat
deriving DecidableEq, Repr

/-- `CdbWriter` over an in-memory sink. -/
structure CdbWriter where
  writer : List Nat
  entries_by_table : Nat → List Entry
  is_finalized : Bool
  current_data_offset : Nat

/-- `CdbWriter::new`: write a 4096-byte zero placeholder directory at 0. -/
def newWriter : CdbWriter :=
  { writer := writeAt [] 0 (List.replicate HEADER_SIZE 0)
    entries_by_table := fun _ => []
    is_finalized := false
    current_data_offset := HEADER_SIZE }

/-- `CdbWriter::put`.  Writes the record header via `write_tuple` (two
little-endian u32 values), then the key, then the value, records the
`(hash, offset)` entry under table `hash & 0xff`, and advances the data
cursor by `16 + key_len + val_len` (the literal arithmetic of the source).
Returns the updated writer and the `Result`. -/
def put (w : CdbWriter) (key value : List Nat) : CdbWriter × Except Error Unit :=
  if w.is_finalized then (w, .error .WriterFinalized)
  else
    let record := u32le key.length ++ u32le value.length ++ key ++ value
    let hash_val := hashBytes key
    let table_idx := hash_val % 256
    ({ writer := writeAt w.writer w.current_data_offset record
       entries_by_table := fun t =>
         if t = table_idx
         then w.entries_by_table t ++ [⟨hash_val, w.current_data_offset⟩]
         else w.entries_by_table t
       is_finalized := false
       current_data_offset := w.current_data_offset + 16 + key.length + value.length },
     .ok ())

/-- The probe loop of `write_footer_and_header`: scan forward (wrapping)
from `idx` for a slot whose offset field is zero.  The Rust loop is
unbounded; fuel `slots.length` is exhausted exactly when no empty slot
exists, in which case the source diverges (`none`). -/
def findSlot (slots : List (Nat × Nat)) : Nat → Nat → Option Nat
  | _, 0 => none
  | idx, fuel + 1 =>
    if (slots.getD idx (0, 0)).2 = 0 then some idx
    else findSlot slots ((idx + 1) % slots.length) fuel

/-- Place one entry into the slot array at the first empty slot of its
probe sequence, starting at `(hash >> 8) % num_slots`. -/
def insertOne (slots : List (Nat × Nat)) (e : Entry) : Option (List (Nat × Nat)) :=
  (findSlot slots ((e.hash_val >>> 8) % slots.length) slots.length).map
    fun idx => slots.set idx (e.hash_val, e.offset)

/-- Place all entries, in insertion order. -/
def insertAll (slots : List (Nat × Nat)) (entries : List Entry) :
    Option (List (Nat × Nat)) :=
  entries.foldl (fun acc e => acc.bind (fun s => insertOne s e)) (some slots)

/-- Build the slot array for one subtable: `2·n` slots initialised to
`(0, 0)`, then every entry placed by linear probing. -/
def buildSlots (entries : List Entry) : Option (List (Nat × Nat)) :=
  insertAll (List.replicate (entries.length * 2) (0, 0)) entries

/-- The bytes of a slot array: each slot is two u64 little-endian values. -/
def slotsBytes (slots : List (Nat × Nat)) : List Nat :=
  (slots.map fun s => u64le s.1 ++ u64le s.2).flatten

/-- The 4096 directory bytes: 256 entries of two u64 little-endian values. -/
def headerBytes (tes : List TableEntry) : List Nat :=
  (tes.map fun te => u64le te.offset ++ u64le te.length).flatten

/-- The layout loop of `write_footer_and_header`: for each subtable in
order, either emit `(0, 0)` or build its slot array, write it at the
running position, and advance by `16 · num_slots`. -/
def layoutAux : List (List Entry) → Nat → List Nat →
    Option (List TableEntry × Nat × List Nat)
  | [], pos, buf => some ([], pos, buf)
  | es :: rest, pos, buf =>
    if es.isEmpty then
      (layoutAux rest pos buf).map fun r => (⟨0, 0⟩ :: r.1, r.2)
    else
      match buildSlots es with
      | none => none
      | some slots =>
        (layoutAux rest (pos + slots.length * 16) (writeAt buf pos (slotsBytes slots))).map
          fun r => (⟨pos, slots.length⟩ :: r.1, r.2)

/-- `CdbWriter::write_footer_and_header`.  `none` models the divergence of
an unbounded probe loop that never finds an empty slot. -/
def writeFooterAndHeader (w : CdbWriter) : Option CdbWriter :=
  if w.is_finalized then some w
  else
    match layoutAux ((List.range 256).map w.entries_by_table)
        w.current_data_offset w.writer with
    | none => none
    | some (tes, _, buf) =>
      some { writer := writeAt buf 0 (headerBytes tes)
             entries_by_table := w.entries_by_table
             is_finalized := true
             current_data_offset := w.current_data_offset }

/-- `CdbWriter::finalize` (the flushes are no-ops on the in-memory sink). -/
def finalize (w : CdbWriter) : Option CdbWriter :=
  writeFooterAndHeader w

/-- Run a sequence of puts against a fresh writer. -/
def buildW (pairs : List (List Nat × List Nat)) : CdbWriter :=
  pairs.foldl (fun w p => (put w p.1 p.2).1) newWriter

/-- Build a database: put every pair in order, then finalize. -/
def buildDB (pairs : List (List Nat × List Nat)) : Option CdbWriter :=
  finalize (buildW pairs)

/-! ## Reader (cdb.rs) -/

/-- `read_tuple` (util.rs): two little-endian u32 values at `offset`. -/
def read_tuple (buf : List Nat) (offset : Nat) : Option (Nat × Nat) :=
  (readExactAt buf offset 8).map fun bs => (leNat (bs.take 4), leNat (bs.drop 4))

/-- Decode the 4096 header bytes into 256 `(offset, length)` pairs
(`Cdb::read_header`). -/
def readHeader (buf : List Nat) : Option (List TableEntry) :=
  (readExactAt buf 0 HEADER_SIZE).map fun hb =>
    (List.range 256).map fun i =>
      ⟨leNat ((hb.drop (i * 16)).take 8), leNat ((hb.drop (i * 16 + 8)).take 8)⟩

/-- An open CDB database (struct `Cdb`). -/
structure Cdb where
  reader : List Nat
  header : List TableEntry

/-- `Cdb::new`: read and decode the header once. -/
def Cdb.new (buf : List Nat) : Option Cdb :=
  (readHeader buf).map fun hdr => ⟨buf, hdr⟩

/-- `Cdb::get_value_at`: read and verify a key, then return its value.
`Except.error` is an I/O error, `Except.ok none` means the stored key does
not match. -/
def getValueAt (c : Cdb) (data_offset : Nat) (expected_key : List Nat) :
    Except Unit (Option (List Nat)) :=
  match read_tuple c.reader data_offset with
  | none => .error ()
  | some (key_len, val_len) =>
    if key_len ≠ expected_key.length then .ok none
    else if expected_key.isEmpty then
      match readExactAt c.reader (data_offset + 8) val_len with
      | none => .error ()
      | some value_buf => .ok (some value_buf)
    else
      match readExactAt c.reader (data_offset + 8) key_len with
      | none => .error ()
      | some key_buf =>
        if key_buf ≠ expected_key then .ok none
        else
          match readExactAt c.reader (data_offset + 8 + key_len) val_len with
          | none => .error ()
          | some value_buf => .ok (some value_buf)

/-- The probe loop of `Cdb::get`: iteration `i` inspects slot
`(starting_slot + i) % length`; `count` iterations remain. -/
def getAux (c : Cdb) (key : List Nat) (hash_val starting_slot : Nat)
    (te : TableEntry) : Nat → Nat → Except Unit (Option (List Nat))
  | _, 0 => .ok none
  | i, count + 1 =>
    let slot_to_check := (starting_slot + i) % te.length
    let slot_offset := te.offset + slot_to_check * 16
    match readExactAt c.reader slot_offset 16 with
    | none => .error ()
    | some slot_buffer =>
      let entry_hash := leNat (slot_buffer.take 8)
      let data_offset := leNat (slot_buffer.drop 8)
      if entry_hash = 0 ∧ data_offset = 0 then .ok none
      else if entry_hash = hash_val then
        match getValueAt c data_offset key with
        | .error e => .error e
        | .ok (some value) => .ok (some value)
        | .ok none => getAux c key hash_val starting_slot te (i + 1) count
      else getAux c key hash_val starting_slot te (i + 1) count

/-- `Cdb::get`. -/
def Cdb.get (c : Cdb) (key : List Nat) : Except Unit (Option (List Nat)) :=
  let hash_val := hashBytes key
  let table_idx := hash_val % 256
  let table_entry := c.header.getD table_idx ⟨0, 0⟩
  if table_entry.length = 0 then .ok none
  else getAux c key hash_val ((hash_val >>> 8) % table_entry.length)
    table_entry 0 table_entry.length

/-! ## Iterator (iterator.rs) -/

/-- The end bound computed by `CdbIterator::new`: the least slot-array
offset that is positive and at least `HEADER_SIZE`, or `HEADER_SIZE` when
no subtable qualifies (`u64::MAX` is the fold seed). -/
def iterEndPos (header : List TableEntry) : Nat :=
  let st := header.foldl
    (fun (acc : Nat × Bool) te =>
      if 0 < te.length ∧ 0 < te.offset ∧ HEADER_SIZE ≤ te.offset
      then (min acc.1 te.offset, true) else acc)
    (2 ^ 64 - 1, false)
  if st.2 then st.1 else HEADER_SIZE

/-- `CdbIterator::next` at cursor `current_pos` with end bound `end_pos`:
`none` is exhaustion, `some (.error ())` an I/O or corrupt-record error,
`some (.ok ((key, value), p))` a yielded record with the advanced cursor. -/
def iterNext (c : Cdb) (current_pos end_pos : Nat) :
    Option (Except Unit ((List Nat × List Nat) × Nat)) :=
  if current_pos ≥ end_pos then none
  else
    match read_tuple c.reader current_pos with
    | none => some (.error ())
    | some (key_len, val_len) =>
      let record_data_offset := current_pos + 16
      let total_record_len_with_header := 16 + key_len + val_len
      if current_pos + total_record_len_with_header > end_pos then some (.error ())
      else
        match readExactAt c.reader record_data_offset key_len with
        | none => some (.error ())
        | some key_buf =>
          match readExactAt c.reader (record_data_offset + key_len) val_len with
          | none => some (.error ())
          | some val_buf =>
            some (.ok ((key_buf, val_buf), current_pos + total_record_len_with_header))

/-! ## Claim theorems: hash (C5, C10) -/

/-- Claim C5: for every byte string, the default hash equals the DJB64
fold: starting from state 5381, for each byte in order the state becomes
`((state << 5) + state) XOR byte` under wrapping 64-bit unsigned
arithmetic; in particular the hash of the empty byte string is 5381. -/
theorem c5_default_hash_is_djb64_fold (bs : List Nat) :
    hashBytes bs = bs.foldl (fun st b => (st * 32 + st) % 2 ^ 64 ^^^ b) 5381 ∧
      hashBytes [] = 5381 := by
  refine ⟨?_, rfl⟩
  unfold hashBytes CdbHash.finish CdbHash.write CdbHash.new CDB_HASH_START_VALUE
  exact List.foldl_ext _ _ _ fun st b _ => by
    have : st <<< 5 = st * 32 := by rw [Nat.shiftLeft_eq]
    rw [this]
    congr 1
    omega

/-- Claim C10: the default hash is a homomorphism over concatenation of
writes: feeding `a` and then `b` to a hasher yields the same final state
as feeding `a ++ b`, so incremental and one-shot hashing agree. -/
theorem c10_hash_write_concat (h : CdbHash) (a b : List Nat) :
    ((h.write a).write b).finish = (h.write (a ++ b)).finish := by
  simp [CdbHash.write, CdbHash.finish, List.foldl_append]

/-! ## Claim theorems: finalized-writer behaviour (C8, C9) -/

theorem is_finalized_of_finalize (w w' : CdbWriter)
    (h : finalize w = some w') : w'.is_finalized = true := by
  unfold finalize writeFooterAndHeader at h
  by_cases hf : w.is_finalized
  · rw [if_pos hf, Option.some_inj] at h
    rw [← h]
    exact hf
  · rw [if_neg hf] at h
    rcases hl : layoutAux ((List.range 256).map w.entries_by_table)
        w.current_data_offset w.writer with _ | ⟨tes, pos, buf⟩
    · rw [hl] at h
      exact absurd h (by simp)
    · rw [hl, Option.some_inj] at h
      rw [← h]

/-- A finalized writer is a fixed point of `finalize`. -/
theorem finalize_of_finalized (w : CdbWriter) (h : w.is_finalized = true) :
    finalize w = some w := by
  unfold finalize writeFooterAndHeader
  rw [if_pos h]

/-- Claim C8: after a successful finalize, every `put` fails with the
dedicated `WriterFinalized` error and leaves the writer state — the
per-subtable entry lists, the data cursor, and the sink bytes —
unchanged. -/
theorem c8_put_after_finalize (w w' : CdbWriter) (key value : List Nat)
    (h : finalize w = some w') :
    put w' key value = (w', .error .WriterFinalized) := by
  unfold put
  rw [if_pos (is_finalized_of_finalize w w' h)]

/-- Claim C8 witness at a concrete writer. -/
theorem c8_put_after_finalize_witness :
    finalize newWriter = some ((finalize newWriter).getD newWriter) ∧
      put ((finalize newWriter).getD newWriter) [107] [118] =
        ((finalize newWriter).getD newWriter, .error .WriterFinalized) :=
  ⟨by rfl, c8_put_after_finalize newWriter _ [107] [118] (by rfl)⟩

/-- Claim C9: finalize is idempotent after success: once it has returned
success, every further call returns success with the writer (and so the
sink bytes) unchanged, writing nothing further. -/
theorem c9_finalize_idempotent (w w' : CdbWriter)
    (h : finalize w = some w') : finalize w' = some w' :=
  finalize_of_finalized w' (is_finalized_of_finalize w w' h)

/-- Claim C9 witness at a concrete writer. -/
theorem c9_finalize_idempotent_witness :
    finalize newWriter = some ((finalize newWriter).getD newWriter) ∧
      finalize ((finalize newWriter).getD newWriter) =
        some ((finalize newWriter).getD newWriter) :=
  ⟨by rfl, c9_finalize_idempotent newWriter _ (by rfl)⟩

/-! ## Claim theorems: the record-header / cursor mismatch (C3, C4) -/

/-- Equation for `put` on a non-finalized writer. -/
theorem put_eq (w : CdbWriter) (key value : List Nat)
    (h : w.is_finalized = false) :
    put w key value =
      ({ writer := writeAt w.writer w.current_data_offset
            (u32le key.length ++ u32le value.length ++ key ++ value)
         entries_by_table := fun t =>
           if t = hashBytes key % 256
           then w.entries_by_table t ++ [⟨hashBytes key, w.current_data_offset⟩]
           else w.entries_by_table t
         is_finalized := false
         current_data_offset := w.current_data_offset + 16 + key.length + value.length },
       .ok ()) := by
  unfold put
  rw [if_neg (by rw [h]; exact Bool.false_ne_true)]

theorem newWriter_writer : newWriter.writer = writeAt [] 0 (List.replicate HEADER_SIZE 0) := rfl

theorem newWriter_writer_length : newWriter.writer.length = HEADER_SIZE := by
  rw [newWriter_writer, writeAt_length, List.length_replicate]
  rfl

/-- Claim C3 (code bug): `put` writes an 8-byte record header — the two
lengths as little-endian u32 values, here `[1,0,0,0, 1,0,0,0]` — directly
followed by the key and value bytes, so after one 1-byte-key, 1-byte-value
record the sink holds those 10 bytes at 4096 and ends at 4106; but the
data cursor advances by `16 + key_len + val_len` to 4114, not by
`8 + key_len + val_len` to 4106, leaving an 8-byte hole before the next
record. -/
theorem c3_put_writes_u32_header_but_advances_16 :
    (put newWriter [107] [118]).1.current_data_offset = 4114 ∧
      readExactAt (put newWriter [107] [118]).1.writer HEADER_SIZE 10 =
        some [1, 0, 0, 0, 1, 0, 0, 0, 107, 118] ∧
      (put newWriter [107] [118]).1.writer.length = 4106 := by
  rw [put_eq newWriter [107] [118] rfl]
  refine ⟨rfl, ?_, ?_⟩
  · have h10 : (u32le [107].length ++ u32le [118].length ++ [107] ++ [118]) =
        [1, 0, 0, 0, 1, 0, 0, 0, 107, 118] := rfl
    have := readExactAt_of_hasBytes _ _ _
      (hasBytes_writeAt_self newWriter.writer newWriter.current_data_offset
        (u32le [107].length ++ u32le [118].length ++ [107] ++ [118]))
    rw [h10] at this
    exact this
  · rw [writeAt_length, newWriter_writer_length]
    rfl

/-! ## Probe-loop combinatorics (the layout half of write_footer_and_header) -/

/-- Abbreviation for reading a slot. -/
def slotGet (slots : List (Nat × Nat)) (j : Nat) : Nat × Nat := slots.getD j (0, 0)

theorem mod_window_inj (S d₁ d₂ s : Nat) (h₁ : d₁ < S) (h₂ : d₂ < S)
    (h : (s + d₁) % S = (s + d₂) % S) : d₁ = d₂ := by
  have hmeq : Nat.ModEq S d₁ d₂ := Nat.ModEq.add_left_cancel' s h
  rwa [Nat.ModEq, Nat.mod_eq_of_lt h₁, Nat.mod_eq_of_lt h₂] at hmeq

theorem findSlot_eq_of_path (slots : List (Nat × Nat)) (S : Nat)
    (hS : slots.length = S) (hS0 : 0 < S) :
    ∀ (d idx fuel : Nat), idx < S → d < fuel →
      (slotGet slots ((idx + d) % S)).2 = 0 →
      (∀ d' < d, (slotGet slots ((idx + d') % S)).2 ≠ 0) →
      findSlot slots idx fuel = some ((idx + d) % S) := by
  intro d
  induction d with
  | zero =>
    intro idx fuel hidx hfuel hempty _
    rcases fuel with _ | fuel
    · omega
    · unfold findSlot
      simp only [Nat.add_zero, Nat.mod_eq_of_lt hidx] at hempty ⊢
      simp only [slotGet] at hempty
      rw [if_pos hempty]
  | succ d ih =>
    intro idx fuel hidx hfuel hempty hpath
    rcases fuel with _ | fuel
    · omega
    · unfold findSlot
      have h0 := hpath 0 (by omega)
      simp only [Nat.add_zero, Nat.mod_eq_of_lt hidx] at h0
      simp only [slotGet] at h0
      rw [if_neg h0, hS]
      have hmod : ∀ d' : Nat, ((idx + 1) % S + d') % S = (idx + (d' + 1)) % S := by
        intro d'
        rw [Nat.mod_add_mod]
        congr 1
        omega
      have := ih ((idx + 1) % S) fuel (Nat.mod_lt _ hS0) (by omega) ?_ ?_
      · rw [this, hmod d]
      · rw [hmod d]
        exact hempty
      · intro d' hd'
        rw [hmod d']
        exact hpath (d' + 1) (by omega)

theorem findSlot_some_spec (slots : List (Nat × Nat)) (S : Nat)
    (hS : slots.length = S) (hS0 : 0 < S) :
    ∀ (fuel idx j : Nat), idx < S → findSlot slots idx fuel = some j →
      j < S ∧ (slotGet slots j).2 = 0 := by
  intro fuel
  induction fuel with
  | zero => intro idx j _ h; exact absurd h (by unfold findSlot; simp)
  | succ fuel ih =>
    intro idx j hidx h
    unfold findSlot at h
    by_cases hcase : (slots.getD idx (0, 0)).2 = 0
    · rw [if_pos hcase, Option.some_inj] at h
      exact h ▸ ⟨hidx, hcase⟩
    · rw [if_neg hcase] at h
      rw [hS] at h
      exact ih ((idx + 1) % S) j (Nat.mod_lt _ hS0) h

/-- If some slot is empty, the probe starting anywhere finds one within
`S` steps — together with the minimal-distance path description. -/
theorem findSlot_succeeds (slots : List (Nat × Nat)) (S : Nat)
    (hS : slots.length = S) (hS0 : 0 < S) (idx : Nat) (hidx : idx < S)
    (j : Nat) (hj : j < S) (hempty : (slotGet slots j).2 = 0) :
    ∃ d < S, findSlot slots idx S = some ((idx + d) % S) ∧
      (slotGet slots ((idx + d) % S)).2 = 0 ∧
      ∀ d' < d, (slotGet slots ((idx + d') % S)).2 ≠ 0 := by
  classical
  have hwit : (idx + (j + S - idx) % S) % S = j := by
    conv_lhs => rw [Nat.add_mod, Nat.mod_mod_of_dvd _ dvd_rfl, ← Nat.add_mod]
    rw [show idx + (j + S - idx) = j + S from by omega, Nat.add_mod_right,
      Nat.mod_eq_of_lt hj]
  have hex : ∃ d, (slotGet slots ((idx + d) % S)).2 = 0 :=
    ⟨(j + S - idx) % S, by rw [hwit]; exact hempty⟩
  set d := Nat.find hex with hdef
  have hdspec : (slotGet slots ((idx + d) % S)).2 = 0 := Nat.find_spec hex
  have hdmin : ∀ d' < d, (slotGet slots ((idx + d') % S)).2 ≠ 0 :=
    fun d' hd' => Nat.find_min hex hd'
  have hdlt : d < S := by
    have hle : d ≤ (j + S - idx) % S :=
      Nat.find_min' hex (by rw [hwit]; exact hempty)
    exact lt_of_le_of_lt hle (Nat.mod_lt _ hS0)
  exact ⟨d, hdlt, findSlot_eq_of_path slots S hS hS0 d idx S hidx hdlt hdspec hdmin,
    hdspec, hdmin⟩

/-- The probe start of an entry in a table of `S` slots. -/
def startOf (S : Nat) (e : Entry) : Nat := (e.hash_val >>> 8) % S

/-- The pair a placed entry leaves in its slot. -/
def pairOf (e : Entry) : Nat × Nat := (e.hash_val, e.offset)

/-- The number of occupied slots (non-zero offset field). -/
def occCount (slots : List (Nat × Nat)) : Nat :=
  slots.countP (fun s => decide (s.2 ≠ 0))

theorem slotGet_set (slots : List (Nat × Nat)) (i j : Nat) (v : Nat × Nat) :
    slotGet (slots.set i v) j =
      if i = j ∧ i < slots.length then v else slotGet slots j := by
  unfold slotGet
  by_cases hij : i = j
  · subst hij
    by_cases hlen : i < slots.length
    · simp [List.getD_eq_getElem?_getD, List.getElem?_set_self hlen, hlen]
    · rw [List.set_eq_of_length_le (by omega)]
      simp [hlen]
  · simp [List.getD_eq_getElem?_getD, List.getElem?_set_ne hij, hij]

theorem slotGet_replicate (n : Nat) (j : Nat) :
    slotGet (List.replicate n (0, 0)) j = (0, 0) := by
  simp only [slotGet, List.getD_eq_getElem?_getD, List.getElem?_replicate]
  by_cases h : j < n <;> simp [h]

theorem occCount_replicate (n : Nat) : occCount (List.replicate n (0, 0)) = 0 := by
  induction n with
  | zero => rfl
  | succ n ih =>
    rw [List.replicate_succ]
    simpa [occCount, List.countP_cons] using ih

theorem occCount_set_empty (slots : List (Nat × Nat)) (j : Nat) (v : Nat × Nat)
    (hj : j < slots.length) (hempty : (slotGet slots j).2 = 0) (hv : v.2 ≠ 0) :
    occCount (slots.set j v) = occCount slots + 1 := by
  unfold occCount
  rw [List.countP_set _ _ _ _ hj]
  have hgj : slots[j] = slotGet slots j := by
    simp [slotGet, List.getD_eq_getElem?_getD, List.getElem?_eq_getElem hj]
  rw [hgj]
  have h1 : (decide ((slotGet slots j).2 ≠ 0)) = false := by simp [hempty]
  have h2 : (decide (v.2 ≠ 0)) = true := by simpa using hv
  simp only [h1, h2, if_false, if_true, Bool.false_eq_true]
  omega

theorem exists_empty_of_occCount_lt (slots : List (Nat × Nat))
    (h : occCount slots < slots.length) :
    ∃ j < slots.length, (slotGet slots j).2 = 0 := by
  by_contra hno
  push_neg at hno
  have hall : ∀ s ∈ slots, (fun s : Nat × Nat => decide (s.2 ≠ 0)) s = true := by
    intro s hs
    obtain ⟨j, hj, hget⟩ := List.mem_iff_getElem.mp hs
    have := hno j hj
    have hgj : slots[j] = slotGet slots j := by
      simp [slotGet, List.getD_eq_getElem?_getD, List.getElem?_eq_getElem hj]
    rw [← hget, hgj]
    simpa using this
  have := List.countP_eq_length.mpr hall
  unfold occCount at h
  omega

theorem insertAll_none (rest : List Entry) :
    List.foldl (fun acc e => acc.bind fun s => insertOne s e) none rest = none := by
  induction rest with
  | nil => rfl
  | cons r rs ih =>
    rw [List.foldl_cons]
    simpa using ih

theorem insertAll_cons (slots : List (Nat × Nat)) (e : Entry) (rest : List Entry) :
    insertAll slots (e :: rest) = (insertOne slots e).bind fun s => insertAll s rest := by
  unfold insertAll
  rw [List.foldl_cons]
  rcases h : insertOne slots e with _ | s
  · simp [h, insertAll_none rest]
  · simp [h]

/-- Everything `insertAll` guarantees about the produced slot array. -/
structure InsOut (S : Nat) (slots₀ : List (Nat × Nat)) (entries : List Entry)
    (slots' : List (Nat × Nat)) (ds : List Nat) : Prop where
  len : slots'.length = S
  occ : occCount slots' = occCount slots₀ + entries.length
  preserve : ∀ j < S, (slotGet slots₀ j).2 ≠ 0 → slotGet slots' j = slotGet slots₀ j
  content : ∀ j < S, slotGet slots' j = slotGet slots₀ j ∨
    ∃ i < entries.length, slotGet slots' j = pairOf (entries.getD i ⟨0, 0⟩)
  dlen : ds.length = entries.length
  dlt : ∀ i < entries.length, ds.getD i 0 < S
  placedAt : ∀ i < entries.length,
    slotGet slots' ((startOf S (entries.getD i ⟨0, 0⟩) + ds.getD i 0) % S) =
      pairOf (entries.getD i ⟨0, 0⟩)
  path : ∀ i < entries.length, ∀ d' < ds.getD i 0,
    (slotGet slots' ((startOf S (entries.getD i ⟨0, 0⟩) + d') % S)).2 ≠ 0
  fresh : ∀ i < entries.length, ∀ j < S, (slotGet slots₀ j).2 ≠ 0 →
    (startOf S (entries.getD i ⟨0, 0⟩) + ds.getD i 0) % S ≠ j
  occWhere : ∀ j < S, (slotGet slots' j).2 ≠ 0 →
    (slotGet slots₀ j).2 ≠ 0 ∨ ∃ i < entries.length,
      j = (startOf S (entries.getD i ⟨0, 0⟩) + ds.getD i 0) % S
  ordered : ∀ i i', i < i' → i' < entries.length →
    startOf S (entries.getD i' ⟨0, 0⟩) = startOf S (entries.getD i ⟨0, 0⟩) →
    ds.getD i 0 < ds.getD i' 0

theorem insertAll_spec (S : Nat) (hS0 : 0 < S) :
    ∀ (entries : List Entry) (slots₀ : List (Nat × Nat)),
      slots₀.length = S →
      (∀ e ∈ entries, e.offset ≠ 0) →
      occCount slots₀ + entries.length ≤ S →
      ∃ slots' ds, insertAll slots₀ entries = some slots' ∧
        InsOut S slots₀ entries slots' ds := by
  intro entries
  induction entries with
  | nil =>
    intro slots₀ hS _ _
    refine ⟨slots₀, [], rfl, ?_⟩
    exact
      { len := hS
        occ := by simp
        preserve := fun j _ _ => rfl
        content := fun j _ => Or.inl rfl
        dlen := rfl
        dlt := by simp
        placedAt := by simp
        path := by simp
        fresh := by simp
        occWhere := fun j _ hocc => Or.inl hocc
        ordered := by simp }
  | cons e rest ih =>
    intro slots₀ hS hoff hcap
    simp only [List.length_cons] at hcap
    -- Find the empty slot for `e` and place it.
    obtain ⟨jE, hjE, hjEempty⟩ := exists_empty_of_occCount_lt slots₀ (by omega)
    rw [hS] at hjE
    obtain ⟨d₀, hd₀S, hfind, hfempty, hfpath⟩ :=
      findSlot_succeeds slots₀ S hS hS0 (startOf S e) (Nat.mod_lt _ hS0) jE hjE hjEempty
    set j₀ := (startOf S e + d₀) % S with hj₀def
    have hj₀lt : j₀ < S := Nat.mod_lt _ hS0
    set slots₁ := slots₀.set j₀ (pairOf e) with hslots₁def
    have hins1 : insertOne slots₀ e = some slots₁ := by
      unfold insertOne
      rw [hS]
      rw [show (e.hash_val >>> 8) % S = startOf S e from rfl, hfind]
      rfl
    have hlen₁ : slots₁.length = S := by rw [hslots₁def, List.length_set, hS]
    have heoff : e.offset ≠ 0 := hoff e (List.mem_cons_self _ _)
    have hget₁ : ∀ j, slotGet slots₁ j =
        if j₀ = j then pairOf e else slotGet slots₀ j := by
      intro j
      rw [hslots₁def, slotGet_set]
      by_cases hj : j₀ = j
      · subst hj
        simp [show j₀ < slots₀.length from by omega]
      · simp [hj]
    have hocc₁ : occCount slots₁ = occCount slots₀ + 1 :=
      occCount_set_empty slots₀ j₀ (pairOf e) (by omega) hfempty heoff
    -- Occupancy is monotone from slots₀ to slots₁.
    have hmono₀₁ : ∀ j < S, (slotGet slots₀ j).2 ≠ 0 → slotGet slots₁ j = slotGet slots₀ j := by
      intro j _ hocc
      rw [hget₁]
      by_cases hj : j₀ = j
      · exact absurd (hj ▸ hfempty) (hj ▸ hocc)
      · simp [hj]
    obtain ⟨slots', ds', hins, spec⟩ := ih slots₁ hlen₁
      (fun x hx => hoff x (List.mem_cons_of_mem _ hx)) (by omega)
    refine ⟨slots', d₀ :: ds', ?_, ?_⟩
    · rw [insertAll_cons, hins1, Option.some_bind]
      exact hins
    have hgetD0 : ∀ (i : Nat), (e :: rest).getD (i + 1) ⟨0, 0⟩ = rest.getD i ⟨0, 0⟩ := by
      intro i; rfl
    have hds0 : ∀ (i : Nat), (d₀ :: ds').getD (i + 1) 0 = ds'.getD i 0 := by
      intro i; rfl
    -- e's slot stays intact through the remaining insertions.
    have hj₀final : slotGet slots' j₀ = pairOf e := by
      have hocc1 : (slotGet slots₁ j₀).2 ≠ 0 := by rw [hget₁]; simp [pairOf, heoff]
      rw [spec.preserve j₀ hj₀lt hocc1, hget₁]
      simp
    have hpathfinal : ∀ d' < d₀, (slotGet slots' ((startOf S e + d') % S)).2 ≠ 0 := by
      intro d' hd'
      have hocc0 := hfpath d' hd'
      have hlt : (startOf S e + d') % S < S := Nat.mod_lt _ hS0
      have hocc1 : (slotGet slots₁ ((startOf S e + d') % S)).2 ≠ 0 := by
        rw [hmono₀₁ _ hlt hocc0]; exact hocc0
      rw [spec.preserve _ hlt hocc1]
      exact hocc1
    refine
      { len := spec.len
        occ := by rw [spec.occ, hocc₁]; simp; omega
        preserve := ?_
        content := ?_
        dlen := by simp [spec.dlen]
        dlt := ?_
        placedAt := ?_
        path := ?_
        fresh := ?_
        occWhere := ?_
        ordered := ?_ }
    · -- preserve
      intro j hj hocc
      rw [spec.preserve j hj (by rw [hmono₀₁ j hj hocc]; exact hocc), hmono₀₁ j hj hocc]
    · -- content
      intro j hj
      rcases spec.content j hj with hsame | ⟨i, hi, hpair⟩
      · rw [hsame, hget₁]
        by_cases hcase : j₀ = j
        · exact Or.inr ⟨0, by simp, by simp [hcase]⟩
        · rw [if_neg hcase]
          exact Or.inl rfl
      · exact Or.inr ⟨i + 1, by simpa using hi, by rw [hgetD0]; exact hpair⟩
    · -- dlt
      intro i hi
      rcases i with _ | i
      · exact hd₀S
      · rw [hds0]
        exact spec.dlt i (by simpa using hi)
    · -- placedAt
      intro i hi
      rcases i with _ | i
      · exact hj₀final
      · rw [hds0, hgetD0]
        exact spec.placedAt i (by simpa using hi)
    · -- path
      intro i hi d' hd'
      rcases i with _ | i
      · exact hpathfinal d' hd'
      · rw [hds0] at hd'
        have := spec.path i (by simpa using hi) d' hd'
        rw [hgetD0]
        exact this
    · -- fresh
      intro i hi j hj hocc
      rcases i with _ | i
      · intro hcontra
        apply hocc
        rw [← hcontra]
        exact hfempty
      · have := spec.fresh i (by simpa using hi) j hj
        rw [hgetD0, hds0]
        exact this (by rw [hmono₀₁ j hj hocc]; exact hocc)
    · -- occWhere
      intro j hj hocc
      rcases spec.occWhere j hj hocc with hocc1 | ⟨i, hi, heq⟩
      · rw [hget₁] at hocc1
        by_cases hcase : j₀ = j
        · refine Or.inr ⟨0, by simp, ?_⟩
          rw [← hcase]
          exact hj₀def
        · rw [if_neg hcase] at hocc1
          exact Or.inl hocc1
      · refine Or.inr ⟨i + 1, by simpa using hi, ?_⟩
        rw [hgetD0, hds0]
        exact heq
    · -- ordered
      intro i i' hii hi' hstart
      rcases i with _ | i
      · rcases i' with _ | i'
        · omega
        rw [hds0]
        rw [hgetD0] at hstart
        simp only [List.getD_cons_zero] at hstart ⊢
        by_contra hle
        push_neg at hle
        have hi2 : i' < rest.length := by simpa using hi'
        have hoccpos : (slotGet slots₁ ((startOf S e + ds'.getD i' 0) % S)).2 ≠ 0 := by
          rcases Nat.lt_or_ge (ds'.getD i' 0) d₀ with hlt | hge
          · have hocc0 := hfpath _ hlt
            rw [hget₁]
            by_cases hcase : j₀ = (startOf S e + ds'.getD i' 0) % S
            · rw [if_pos hcase]
              simpa [pairOf] using heoff
            · rw [if_neg hcase]
              exact hocc0
          · have heq : ds'.getD i' 0 = d₀ := by omega
            rw [heq, ← hj₀def, hget₁]
            simp [pairOf, heoff]
        have hne := spec.fresh i' hi2 ((startOf S e + ds'.getD i' 0) % S)
          (Nat.mod_lt _ hS0) hoccpos
        rw [hstart] at hne
        exact hne rfl
      · rcases i' with _ | i'
        · omega
        rw [hds0, hds0]
        rw [hgetD0, hgetD0] at hstart
        exact spec.ordered i i' (by omega) (by simpa using hi') hstart

/-! ## The writer invariant: state after a sequence of puts -/

/-- A record as laid out in the data region. -/
structure Rec where
  off : Nat
  key : List Nat
  val : List Nat
deriving DecidableEq, Repr

/-- The cursor advance of one record (`16 + key_len + val_len`). -/
def recSize (p : List Nat × List Nat) : Nat := 16 + p.1.length + p.2.length

def recListAux : List (List Nat × List Nat) → Nat → List Rec
  | [], _ => []
  | p :: ps, pos => ⟨pos, p.1, p.2⟩ :: recListAux ps (pos + recSize p)

/-- The records of a put sequence with their data offsets. -/
def recList (pairs : List (List Nat × List Nat)) : List Rec :=
  recListAux pairs HEADER_SIZE

/-- The data cursor after a put sequence. -/
def offsetAfter (pairs : List (List Nat × List Nat)) : Nat :=
  HEADER_SIZE + (pairs.map recSize).sum

/-- The bytes one record occupies on disk (8-byte header, key, value). -/
def recBytes (r : Rec) : List Nat :=
  u32le r.key.length ++ u32le r.val.length ++ r.key ++ r.val

/-- The records routed to subtable `t`. -/
def tableRecs (pairs : List (List Nat × List Nat)) (t : Nat) : List Rec :=
  (recList pairs).filter (fun r => hashBytes r.key % 256 == t)

/-- The entry a record contributes to its subtable. -/
def entryOf (r : Rec) : Entry := ⟨hashBytes r.key, r.off⟩

theorem recBytes_length (r : Rec) :
    (recBytes r).length = 8 + r.key.length + r.val.length := by
  simp [recBytes, u32le]
  omega

theorem recListAux_append (ps qs : List (List Nat × List Nat)) (pos : Nat) :
    recListAux (ps ++ qs) pos =
      recListAux ps pos ++ recListAux qs (pos + (ps.map recSize).sum) := by
  induction ps generalizing pos with
  | nil => simp [recListAux]
  | cons p ps ih =>
    simp only [List.cons_append, recListAux, List.append_eq, List.map_cons, List.sum_cons, ih]
    rw [show pos + recSize p + (List.map recSize ps).sum
        = pos + (recSize p + (List.map recSize ps).sum) from by omega]

theorem recList_snoc (ps : List (List Nat × List Nat)) (p : List Nat × List Nat) :
    recList (ps ++ [p]) = recList ps ++ [⟨offsetAfter ps, p.1, p.2⟩] := by
  unfold recList offsetAfter
  rw [recListAux_append]
  rfl

theorem offsetAfter_snoc (ps : List (List Nat × List Nat)) (p : List Nat × List Nat) :
    offsetAfter (ps ++ [p]) = offsetAfter ps + recSize p := by
  unfold offsetAfter
  rw [List.map_append, List.sum_append]
  simp only [List.map_cons, List.map_nil, List.sum_cons, List.sum_nil]
  omega

theorem recListAux_mem_bounds (ps : List (List Nat × List Nat)) :
    ∀ (pos : Nat), ∀ r ∈ recListAux ps pos,
      pos ≤ r.off ∧ r.off + recSize (r.key, r.val) ≤ pos + (ps.map recSize).sum := by
  induction ps with
  | nil => intro pos r hr; simp [recListAux] at hr
  | cons p ps ih =>
    intro pos r hr
    simp only [recListAux, List.mem_cons] at hr
    rcases hr with rfl | hr
    · simp only [recSize, List.map_cons, List.sum_cons]
      omega
    · have hih := ih (pos + recSize p) r hr
      simp only [List.map_cons, List.sum_cons]
      simp only [recSize] at hih ⊢
      omega

theorem recList_mem_bounds (pairs : List (List Nat × List Nat)) :
    ∀ r ∈ recList pairs,
      HEADER_SIZE ≤ r.off ∧ r.off + recSize (r.key, r.val) ≤ offsetAfter pairs :=
  fun r hr => recListAux_mem_bounds pairs HEADER_SIZE r hr

theorem recListAux_pairwise (ps : List (List Nat × List Nat)) :
    ∀ (pos : Nat), List.Pairwise
      (fun a b : Rec => a.off + recSize (a.key, a.val) ≤ b.off) (recListAux ps pos) := by
  induction ps with
  | nil => intro pos; simp [recListAux]
  | cons p ps ih =>
    intro pos
    simp only [recListAux, List.pairwise_cons]
    constructor
    · intro r hr
      have hih := recListAux_mem_bounds ps (pos + recSize p) r hr
      simp only [recSize] at hih ⊢
      omega
    · exact ih (pos + recSize p)

theorem recList_map_keyval (pairs : List (List Nat × List Nat)) :
    ∀ (pos : Nat), (recListAux pairs pos).map (fun r => (r.key, r.val)) = pairs := by
  induction pairs with
  | nil => intro pos; rfl
  | cons p ps ih =>
    intro pos
    simp only [recListAux, List.map_cons, ih]

/-- The writer-state invariant established by any sequence of puts. -/
structure WInv (pairs : List (List Nat × List Nat)) (w : CdbWriter) : Prop where
  notFin : w.is_finalized = false
  cursor : w.current_data_offset = offsetAfter pairs
  lenLB : HEADER_SIZE ≤ w.writer.length
  lenUB : w.writer.length ≤ offsetAfter pairs
  tables : ∀ t, w.entries_by_table t = (tableRecs pairs t).map entryOf
  recs : ∀ r ∈ recList pairs, hasBytes w.writer r.off (recBytes r)

theorem buildW_nil : buildW [] = newWriter := rfl

theorem buildW_snoc (ps : List (List Nat × List Nat)) (p : List Nat × List Nat) :
    buildW (ps ++ [p]) = (put (buildW ps) p.1 p.2).1 := by
  unfold buildW
  rw [List.foldl_append]
  rfl

theorem winv_buildW (pairs : List (List Nat × List Nat)) :
    WInv pairs (buildW pairs) := by
  induction pairs using List.reverseRecOn with
  | nil =>
    refine
      { notFin := rfl
        cursor := by simp [buildW, newWriter, offsetAfter]
        lenLB := by rw [buildW_nil, newWriter_writer_length]
        lenUB := by rw [buildW_nil, newWriter_writer_length]; simp [offsetAfter]
        tables := fun t => rfl
        recs := by intro r hr; simp [recList, recListAux] at hr }
  | append_singleton ps p ih =>
    have hput := put_eq (buildW ps) p.1 p.2 ih.notFin
    have hw : buildW (ps ++ [p]) = (put (buildW ps) p.1 p.2).1 := buildW_snoc ps p
    rw [hput] at hw
    have hoffC := ih.cursor
    refine
      { notFin := by rw [hw]
        cursor := by rw [hw, offsetAfter_snoc]; simp [recSize, hoffC]; omega
        lenLB := ?_
        lenUB := ?_
        tables := ?_
        recs := ?_ }
    · rw [hw]
      simp only [writeAt_length]
      have := ih.lenLB
      omega
    · rw [hw]
      simp only [writeAt_length]
      have h1 := ih.lenUB
      have h2 : (u32le p.1.length ++ u32le p.2.length ++ p.1 ++ p.2).length =
          8 + p.1.length + p.2.length := by simp [u32le]; omega
      rw [h2, offsetAfter_snoc, hoffC]
      simp only [recSize]
      omega
    · intro t
      have hsplit : (tableRecs (ps ++ [p]) t).map entryOf
          = (tableRecs ps t).map entryOf ++
            (if t = hashBytes p.1 % 256
             then [Entry.mk (hashBytes p.1) (offsetAfter ps)] else []) := by
        unfold tableRecs
        rw [recList_snoc, List.filter_append, List.map_append]
        congr 1
        by_cases hcase : t = hashBytes p.1 % 256
        · rw [if_pos hcase]
          simp [entryOf, hcase]
        · rw [if_neg hcase]
          have hne : (hashBytes p.1 % 256 == t) = false := by
            simp only [beq_eq_false_iff_ne, ne_eq]
            intro hcontra
            exact hcase hcontra.symm
          simp [hne]
      rw [hw, hsplit]
      simp only
      rw [ih.tables t]
      by_cases hcase : t = hashBytes p.1 % 256
      · rw [if_pos hcase, if_pos hcase, hoffC]
      · rw [if_neg hcase, if_neg hcase, List.append_nil]
    · intro r hr
      rw [recList_snoc] at hr
      rw [hw]
      simp only
      rcases List.mem_append.mp hr with hold | hnew
      · have hb := ih.recs r hold
        have hbound := recList_mem_bounds ps r hold
        apply hasBytes_writeAt_of_le
        · exact hb
        · rw [recBytes_length, hoffC]
          simp only [recSize] at hbound
          omega
      · simp only [List.mem_singleton] at hnew
        subst hnew
        rw [hoffC] at *
        have := hasBytes_writeAt_self (buildW ps).writer (offsetAfter ps)
          (u32le p.1.length ++ u32le p.2.length ++ p.1 ++ p.2)
        rw [← hoffC]
        exact this

/-! ## Layout: write_footer_and_header characterised -/

theorem slotsBytes_length (slots : List (Nat × Nat)) :
    (slotsBytes slots).length = 16 * slots.length := by
  unfold slotsBytes
  rw [List.length_flatten]
  induction slots with
  | nil => rfl
  | cons s rest ih =>
    simp only [List.map_cons, List.sum_cons] at ih ⊢
    rw [ih]
    simp [u64le]
    omega

theorem headerBytes_length (tes : List TableEntry) :
    (headerBytes tes).length = 16 * tes.length := by
  unfold headerBytes
  rw [List.length_flatten]
  induction tes with
  | nil => rfl
  | cons te rest ih =>
    simp only [List.map_cons, List.sum_cons] at ih ⊢
    rw [ih]
    simp [u64le]
    omega

theorem slotsBytes_cons (s : Nat × Nat) (rest : List (Nat × Nat)) :
    slotsBytes (s :: rest) = u64le s.1 ++ u64le s.2 ++ slotsBytes rest := by
  unfold slotsBytes
  simp [List.append_assoc]

theorem headerBytes_cons (te : TableEntry) (rest : List TableEntry) :
    headerBytes (te :: rest) =
      u64le te.offset ++ u64le te.length ++ headerBytes rest := by
  unfold headerBytes
  simp [List.append_assoc]

/-- The 16-byte chunk of slot `j` inside a slot-array byte string. -/
theorem hasBytes_slotsBytes (buf : List Nat) (p : Nat) (slots : List (Nat × Nat))
    (h : hasBytes buf p (slotsBytes slots)) :
    ∀ j < slots.length,
      hasBytes buf (p + 16 * j)
        (u64le (slotGet slots j).1 ++ u64le (slotGet slots j).2) := by
  induction slots generalizing p with
  | nil => intro j hj; simp at hj
  | cons s rest ih =>
    intro j hj
    rw [slotsBytes_cons] at h
    rw [hasBytes_append] at h
    obtain ⟨hhead, htail⟩ := h
    rcases j with _ | j
    · simpa [slotGet] using hhead
    · have hlen16 : (u64le s.1 ++ u64le s.2).length = 16 := by simp [u64le]
      rw [hlen16] at htail
      have := ih (p + 16) htail j (by simpa using hj)
      rw [show p + 16 + 16 * j = p + 16 * (j + 1) from by omega] at this
      simpa [slotGet] using this

/-- The 16-byte chunk of directory entry `k` inside the header bytes. -/
theorem hasBytes_headerBytes (buf : List Nat) (p : Nat) (tes : List TableEntry)
    (h : hasBytes buf p (headerBytes tes)) :
    ∀ k < tes.length,
      hasBytes buf (p + 16 * k)
        (u64le (tes.getD k ⟨0, 0⟩).offset ++ u64le (tes.getD k ⟨0, 0⟩).length) := by
  induction tes generalizing p with
  | nil => intro k hk; simp at hk
  | cons te rest ih =>
    intro k hk
    rw [headerBytes_cons] at h
    rw [hasBytes_append] at h
    obtain ⟨hhead, htail⟩ := h
    rcases k with _ | k
    · simpa using hhead
    · have hlen16 : (u64le te.offset ++ u64le te.length).length = 16 := by simp [u64le]
      rw [hlen16] at htail
      have := ih (p + 16) htail k (by simpa using hk)
      rw [show p + 16 + 16 * k = p + 16 * (k + 1) from by omega] at this
      simpa using this

/-- `buildSlots` succeeds on a nonempty entry list with nonzero offsets,
with the full `InsOut` description. -/
theorem buildSlots_spec (entries : List Entry) (hne : entries ≠ [])
    (hoff : ∀ e ∈ entries, e.offset ≠ 0) :
    ∃ slots ds, buildSlots entries = some slots ∧
      InsOut (entries.length * 2) (List.replicate (entries.length * 2) (0, 0))
        entries slots ds := by
  have hpos : 0 < entries.length := List.length_pos.mpr hne
  obtain ⟨slots, ds, hins, spec⟩ := insertAll_spec (entries.length * 2) (by omega)
    entries (List.replicate (entries.length * 2) (0, 0))
    (List.length_replicate _ _) hoff
    (by rw [occCount_replicate]; omega)
  exact ⟨slots, ds, hins, spec⟩

/-- What the layout loop guarantees. -/
structure LayOut (ts : List (List Entry)) (pos₀ : Nat) (buf₀ : List Nat)
    (tes : List TableEntry) (pos' : Nat) (buf' : List Nat) : Prop where
  tlen : tes.length = ts.length
  posMono : pos₀ ≤ pos'
  posEq : pos' = pos₀ + (ts.map (fun es => if es = [] then 0 else es.length * 2 * 16)).sum
  lenLB : buf₀.length ≤ buf'.length
  lenUB : buf'.length ≤ max buf₀.length pos'
  preserved : ∀ i < pos₀, byteAt buf' i = byteAt buf₀ i
  emptyTab : ∀ k < ts.length, ts.getD k [] = [] → tes.getD k ⟨0, 0⟩ = ⟨0, 0⟩
  fullTab : ∀ k < ts.length, ts.getD k [] ≠ [] →
    ∃ slots ds p, buildSlots (ts.getD k []) = some slots ∧
      InsOut ((ts.getD k []).length * 2)
        (List.replicate ((ts.getD k []).length * 2) (0, 0))
        (ts.getD k []) slots ds ∧
      tes.getD k ⟨0, 0⟩ = ⟨p, slots.length⟩ ∧
      pos₀ ≤ p ∧ p + 16 * slots.length ≤ pos' ∧
      hasBytes buf' p (slotsBytes slots)

theorem layoutAux_spec :
    ∀ (ts : List (List Entry)) (pos₀ : Nat) (buf₀ : List Nat),
      (∀ es ∈ ts, ∀ e ∈ es, e.offset ≠ 0) →
      buf₀.length ≤ pos₀ →
      ∃ tes pos' buf', layoutAux ts pos₀ buf₀ = some (tes, pos', buf') ∧
        LayOut ts pos₀ buf₀ tes pos' buf' := by
  intro ts
  induction ts with
  | nil =>
    intro pos₀ buf₀ _ hlen
    refine ⟨[], pos₀, buf₀, rfl, ?_⟩
    exact
      { tlen := rfl
        posMono := le_refl _
        posEq := by simp
        lenLB := le_refl _
        lenUB := le_max_left _ _
        preserved := fun i _ => rfl
        emptyTab := by simp
        fullTab := by simp }
  | cons es rest ih =>
    intro pos₀ buf₀ hoff hlen
    by_cases hes : es = []
    · subst hes
      obtain ⟨tes, pos', buf', hlay, spec⟩ := ih pos₀ buf₀
        (fun x hx => hoff x (List.mem_cons_of_mem _ hx)) hlen
      refine ⟨⟨0, 0⟩ :: tes, pos', buf', ?_, ?_⟩
      · unfold layoutAux
        rw [if_pos (by simp), hlay]
        rfl
      refine
        { tlen := by simp [spec.tlen]
          posMono := spec.posMono
          posEq := by
            rw [spec.posEq]
            simp
          lenLB := spec.lenLB
          lenUB := spec.lenUB
          preserved := spec.preserved
          emptyTab := ?_
          fullTab := ?_ }
      · intro k hk hempty
        rcases k with _ | k
        · rfl
        · exact spec.emptyTab k (by simpa using hk) hempty
      · intro k hk hfull
        rcases k with _ | k
        · exact absurd rfl hfull
        · obtain ⟨slots2, ds2, p2, h1, h2, h3, h4, h5, h6⟩ :=
            spec.fullTab k (by simpa using hk) hfull
          exact ⟨slots2, ds2, p2, h1, h2, h3, by omega, h5, h6⟩
    · obtain ⟨slots, ds, hbuild, hins⟩ := buildSlots_spec es hes
        (hoff es (List.mem_cons_self _ _))
      have hslen : slots.length = es.length * 2 := hins.len
      have hbytes : (slotsBytes slots).length = 16 * slots.length := slotsBytes_length slots
      obtain ⟨tes, pos', buf', hlay, spec⟩ := ih (pos₀ + slots.length * 16)
        (writeAt buf₀ pos₀ (slotsBytes slots))
        (fun x hx => hoff x (List.mem_cons_of_mem _ hx))
        (by rw [writeAt_length, hbytes]; omega)
      refine ⟨⟨pos₀, slots.length⟩ :: tes, pos', buf', ?_, ?_⟩
      · unfold layoutAux
        rw [if_neg (by simpa using hes)]
        simp [hbuild, hlay]
      have hpos₁ : pos₀ ≤ pos₀ + slots.length * 16 := by omega
      refine
        { tlen := by simp [spec.tlen]
          posMono := le_trans hpos₁ spec.posMono
          posEq := by
            rw [spec.posEq, hslen]
            simp only [List.map_cons, List.sum_cons, if_neg hes]
            omega
          lenLB := le_trans (by rw [writeAt_length]; omega) spec.lenLB
          lenUB := ?_
          preserved := ?_
          emptyTab := ?_
          fullTab := ?_ }
      · have h1 := spec.lenUB
        rw [writeAt_length, hbytes] at h1
        have h2 := spec.posMono
        omega
      · intro i hi
        rw [spec.preserved i (by omega)]
        exact byteAt_writeAt_lt buf₀ pos₀ (slotsBytes slots) i hi
      · intro k hk hempty
        rcases k with _ | k
        · exact absurd hempty hes
        · exact spec.emptyTab k (by simpa using hk) hempty
      · intro k hk hfull
        rcases k with _ | k
        · refine ⟨slots, ds, pos₀, hbuild, hins, rfl, le_refl _, ?_, ?_⟩
          · have := spec.posMono
            omega
          · -- the bytes written for this table survive the later writes
            have hself := hasBytes_writeAt_self buf₀ pos₀ (slotsBytes slots)
            refine ⟨?_, ?_⟩
            · rw [hbytes]
              have h1 := spec.lenLB
              rw [writeAt_length, hbytes] at h1
              omega
            · intro j hj
              rw [spec.preserved (pos₀ + j) (by rw [hbytes] at hj; omega)]
              exact hself.2 j hj
        · obtain ⟨slots2, ds2, p2, h1, h2, h3, h4, h5, h6⟩ :=
            spec.fullTab k (by simpa using hk) hfull
          exact ⟨slots2, ds2, p2, h1, h2, h3, by omega, h5, h6⟩

theorem getD_range_map {α : Type} (n : Nat) (f : Nat → α) (d : α) (i : Nat)
    (h : i < n) : ((List.range n).map f).getD i d = f i := by
  rw [List.getD_eq_getElem?_getD, List.getElem?_map, List.getElem?_range h]
  rfl

theorem sum_map_indicator (n v : Nat) :
    ((List.range n).map (fun t => if v = t then 1 else 0)).sum =
      if v < n then 1 else 0 := by
  induction n with
  | zero => simp
  | succ n ih =>
    rw [List.range_succ, List.map_append, List.sum_append, ih]
    simp only [List.map_cons, List.map_nil, List.sum_cons, List.sum_nil]
    by_cases h1 : v = n
    · subst h1
      simp
    · simp only [h1, if_false]
      split_ifs <;> omega

/-- Each record lands in exactly one of the 256 subtables. -/
theorem sum_tableRecs_length (l : List Rec) :
    ((List.range 256).map
      (fun t => (l.filter (fun r => hashBytes r.key % 256 == t)).length)).sum
      = l.length := by
  induction l with
  | nil => simp
  | cons r l ih =>
    have hpoint : ∀ t ∈ List.range 256,
        ((r :: l).filter (fun r => hashBytes r.key % 256 == t)).length
          = (if hashBytes r.key % 256 = t then 1 else 0)
            + (l.filter (fun r => hashBytes r.key % 256 == t)).length := by
      intro t _
      rw [List.filter_cons]
      by_cases hc : hashBytes r.key % 256 = t
      · simp [hc]
        omega
      · simp [hc]
    rw [List.map_congr_left hpoint, List.sum_map_add, ih, sum_map_indicator]
    rw [if_pos (Nat.mod_lt _ (by omega))]
    simp only [List.length_cons]
    omega

/-- Membership characterisation of a subtable entry list after the puts. -/
theorem mem_tableRecs (pairs : List (List Nat × List Nat)) (t : Nat) (r : Rec) :
    r ∈ tableRecs pairs t ↔ r ∈ recList pairs ∧ hashBytes r.key % 256 = t := by
  unfold tableRecs
  rw [List.mem_filter]
  simp

/-- Wrapping up `finalize` on a writer built by puts: it succeeds, and the
resulting sink holds the records, the slot arrays and the directory. -/
theorem finalize_buildW_spec (pairs : List (List Nat × List Nat)) :
    ∃ w' tes pos',
      finalize (buildW pairs) = some w' ∧
      w'.is_finalized = true ∧
      tes.length = 256 ∧
      pos' ≤ offsetAfter pairs + 32 * pairs.length ∧
      offsetAfter pairs ≤ pos' ∧
      hasBytes w'.writer 0 (headerBytes tes) ∧
      (∀ r ∈ recList pairs, hasBytes w'.writer r.off (recBytes r)) ∧
      (∀ t < 256, (buildW pairs).entries_by_table t = [] →
        tes.getD t ⟨0, 0⟩ = ⟨0, 0⟩) ∧
      (∀ t < 256, (buildW pairs).entries_by_table t ≠ [] →
        ∃ slots ds p, buildSlots ((buildW pairs).entries_by_table t) = some slots ∧
          InsOut (((buildW pairs).entries_by_table t).length * 2)
            (List.replicate (((buildW pairs).entries_by_table t).length * 2) (0, 0))
            ((buildW pairs).entries_by_table t) slots ds ∧
          tes.getD t ⟨0, 0⟩ = ⟨p, slots.length⟩ ∧
          offsetAfter pairs ≤ p ∧ p + 16 * slots.length ≤ pos' ∧
          hasBytes w'.writer p (slotsBytes slots)) := by
  have inv := winv_buildW pairs
  set w := buildW pairs with hwdef
  set ts := (List.range 256).map w.entries_by_table with htsdef
  have htsget : ∀ t < 256, ts.getD t [] = w.entries_by_table t := by
    intro t ht
    rw [htsdef, getD_range_map _ _ _ _ ht]
  have hoffm : ∀ es ∈ ts, ∀ e ∈ es, e.offset ≠ 0 := by
    intro es hes e he
    rw [htsdef] at hes
    obtain ⟨t, _, rfl⟩ := List.mem_map.mp hes
    rw [inv.tables t] at he
    obtain ⟨r, hr, rfl⟩ := List.mem_map.mp he
    have hrl := (mem_tableRecs pairs t r).mp hr
    have hb := recList_mem_bounds pairs r hrl.1
    unfold entryOf HEADER_SIZE at *
    simp only
    omega
  obtain ⟨tes, pos', bufL, hlay, spec⟩ := layoutAux_spec ts
    w.current_data_offset w.writer hoffm (by rw [inv.cursor]; exact inv.lenUB)
  have hts_len : ts.length = 256 := by rw [htsdef]; simp
  have hfin_eq : finalize w = some
      { writer := writeAt bufL 0 (headerBytes tes)
        entries_by_table := w.entries_by_table
        is_finalized := true
        current_data_offset := w.current_data_offset } := by
    unfold finalize writeFooterAndHeader
    rw [if_neg (by rw [inv.notFin]; exact Bool.false_ne_true), ← htsdef, hlay]
  -- the sum of table weights is bounded by 32 · #records
  have hsum : (ts.map (fun es => if es = [] then 0 else es.length * 2 * 16)).sum
      ≤ 32 * pairs.length := by
    have hwt : ∀ es ∈ ts, (if es = [] then 0 else es.length * 2 * 16) ≤ 32 * es.length := by
      intro es _
      by_cases hes : es = []
      · simp [hes]
      · simp only [hes, if_false]
        omega
    calc (ts.map (fun es => if es = [] then 0 else es.length * 2 * 16)).sum
        ≤ (ts.map (fun es => 32 * es.length)).sum := by
          apply List.sum_le_sum
          intro es hes
          exact hwt es hes
      _ = 32 * ((ts.map List.length).sum) := by
          rw [← List.sum_map_mul_left]
      _ ≤ 32 * pairs.length := by
          have : (ts.map List.length).sum = pairs.length := by
            rw [htsdef, List.map_map]
            have hmapeq : (List.range 256).map (List.length ∘ w.entries_by_table)
                = (List.range 256).map
                  (fun t => ((recList pairs).filter
                    (fun r => hashBytes r.key % 256 == t)).length) := by
              apply List.map_congr_left
              intro t _
              simp only [Function.comp]
              rw [inv.tables t]
              rw [List.length_map]
              rfl
            rw [hmapeq, sum_tableRecs_length]
            have : (recList pairs).length = pairs.length := by
              have := recList_map_keyval pairs HEADER_SIZE
              have hlen := congrArg List.length this
              rwa [List.length_map] at hlen
            rw [this]
          omega
  refine ⟨_, tes, pos', hfin_eq, rfl, by rw [spec.tlen, hts_len], ?_, ?_, ?_, ?_, ?_, ?_⟩
  · rw [spec.posEq, inv.cursor]
    omega
  · rw [← inv.cursor]
    exact spec.posMono
  · exact hasBytes_writeAt_self bufL 0 (headerBytes tes)
  · intro r hr
    have hb := inv.recs r hr
    have hbound := recList_mem_bounds pairs r hr
    have hrecb : (recBytes r).length = 8 + r.key.length + r.val.length := recBytes_length r
    have hmid : hasBytes bufL r.off (recBytes r) := by
      refine ⟨?_, ?_⟩
      · have h1 := hb.1
        have h2 := spec.lenLB
        omega
      · intro j hj
        rw [spec.preserved (r.off + j) ?_]
        · exact hb.2 j hj
        · rw [inv.cursor]
          simp only [recSize] at hbound
          omega
    apply hasBytes_writeAt_of_ge
    · exact hmid
    · rw [headerBytes_length, spec.tlen, hts_len]
      unfold HEADER_SIZE at *
      omega
  · intro t ht hempty
    exact spec.emptyTab t (by omega) (by rw [htsget t ht]; exact hempty)
  · intro t ht hfull
    obtain ⟨slots, ds, p, h1, h2, h3, h4, h5, h6⟩ := spec.fullTab t
      (by omega) (by rw [htsget t ht]; exact hfull)
    rw [htsget t ht] at h1 h2
    refine ⟨slots, ds, p, h1, h2, h3, ?_, h5, ?_⟩
    · rw [← inv.cursor]
      exact h4
    · apply hasBytes_writeAt_of_ge
      · exact h6
      · rw [headerBytes_length, spec.tlen, hts_len]
        have hhs : HEADER_SIZE = 4096 := rfl
        have hcur := inv.cursor
        have hoa : HEADER_SIZE ≤ offsetAfter pairs := by
          unfold offsetAfter
          omega
        omega

/-! ## Claim theorems: slot placement (C6, C7) -/

/-- Claim C7: finalize always terminates.  For every subtable the
unbounded probe loop placing each `(hash, offset)` entry finds an empty
slot within at most `2·n` probe steps (the fuel of `findSlot` is exactly
the slot count `2·n`, so success of `buildSlots` is success within `2·n`
steps per entry), because at most `n` of the `2·n` slots are ever
occupied; consequently `finalize` succeeds on every writer built by puts. -/
theorem c7_finalize_terminates :
    (∀ (entries : List Entry), entries ≠ [] → (∀ e ∈ entries, e.offset ≠ 0) →
      ∃ slots, buildSlots entries = some slots ∧
        slots.length = entries.length * 2) ∧
    (∀ pairs : List (List Nat × List Nat), ∃ w', finalize (buildW pairs) = some w') := by
  constructor
  · intro entries hne hoff
    obtain ⟨slots, ds, hb, spec⟩ := buildSlots_spec entries hne hoff
    exact ⟨slots, hb, spec.len⟩
  · intro pairs
    obtain ⟨w', tes, pos', hfin, _⟩ := finalize_buildW_spec pairs
    exact ⟨w', hfin⟩

/-- Claim C7 witness at a concrete subtable and a concrete put sequence. -/
theorem c7_finalize_terminates_witness :
    (∃ slots, buildSlots [⟨4660, 4096⟩] = some slots ∧
      slots.length = ([(⟨4660, 4096⟩ : Entry)]).length * 2) ∧
    ∃ w', finalize (buildW []) = some w' :=
  ⟨c7_finalize_terminates.1 [⟨4660, 4096⟩] (by decide) (by decide),
   c7_finalize_terminates.2 []⟩

/-- Claim C6: after the puts, for every subtable with at least one entry,
the builder lays out a slot array in which the number of non-empty slots
equals the number of records whose hash low byte selects that subtable,
and every recorded `(hash, offset)` pair sits in exactly one slot; the
offset-field-is-zero emptiness test never overwrites a placed entry
because every offset recorded by put is at least 4096. -/
theorem c6_slot_array_contents (pairs : List (List Nat × List Nat)) :
    ∀ t < 256, (buildW pairs).entries_by_table t ≠ [] →
      ∃ slots, buildSlots ((buildW pairs).entries_by_table t) = some slots ∧
        occCount slots = (tableRecs pairs t).length ∧
        (∀ e ∈ (buildW pairs).entries_by_table t, 4096 ≤ e.offset) ∧
        (∀ e ∈ (buildW pairs).entries_by_table t,
          ∃! j, j < slots.length ∧ slotGet slots j = pairOf e) := by
  intro t ht hne
  have inv := winv_buildW pairs
  have htab := inv.tables t
  set entries := (buildW pairs).entries_by_table t with hentdef
  have hoffs : ∀ e ∈ entries, 4096 ≤ e.offset := by
    intro e he
    rw [htab] at he
    obtain ⟨r, hr, rfl⟩ := List.mem_map.mp he
    have hrl := (mem_tableRecs pairs t r).mp hr
    have hb := recList_mem_bounds pairs r hrl.1
    unfold entryOf HEADER_SIZE at *
    simp only
    omega
  have hoff0 : ∀ e ∈ entries, e.offset ≠ 0 := fun e he => by
    have := hoffs e he
    omega
  obtain ⟨slots, ds, hb, spec⟩ := buildSlots_spec entries hne hoff0
  have hS : slots.length = entries.length * 2 := spec.len
  have hS0 : 0 < entries.length * 2 := by
    have := List.length_pos.mpr hne
    omega
  -- pairwise-увеличивающиеся offsets give distinctness
  have hpair : List.Pairwise (fun a b : Entry => a.offset < b.offset) entries := by
    rw [htab]
    apply List.Pairwise.map
    · intro a b hab
      exact hab
    · apply List.Pairwise.imp ?_ (List.Pairwise.filter _ (recListAux_pairwise pairs HEADER_SIZE))
      intro a b h
      unfold entryOf
      simp only
      simp only [recSize] at h
      omega
  have hdistinct : ∀ i i', i < entries.length → i' < entries.length →
      (entries.getD i ⟨0, 0⟩).offset = (entries.getD i' ⟨0, 0⟩).offset → i = i' := by
    intro i i' hi hi' heq
    by_contra hne2
    rcases Nat.lt_or_ge i i' with hlt | hge
    · have := (List.pairwise_iff_getElem.mp hpair) i i' hi hi' hlt
      rw [List.getD_eq_getElem _ _ hi, List.getD_eq_getElem _ _ hi'] at heq
      omega
    · have hlt : i' < i := by omega
      have := (List.pairwise_iff_getElem.mp hpair) i' i hi' hi hlt
      rw [List.getD_eq_getElem _ _ hi, List.getD_eq_getElem _ _ hi'] at heq
      omega
  refine ⟨slots, hb, ?_, hoffs, ?_⟩
  · rw [spec.occ, occCount_replicate, htab, List.length_map]
    simp
  · intro e he
    obtain ⟨i, hi, hei⟩ := List.mem_iff_getElem.mp he
    have hegetD : entries.getD i ⟨0, 0⟩ = e := by
      rw [List.getD_eq_getElem _ _ hi, hei]
    set jPlace := (startOf (entries.length * 2) (entries.getD i ⟨0, 0⟩) + ds.getD i 0)
      % (entries.length * 2) with hjdef
    refine ⟨jPlace, ⟨?_, ?_⟩, ?_⟩
    · rw [hS]
      exact Nat.mod_lt _ hS0
    · rw [← hegetD]
      exact spec.placedAt i hi
    · intro j' hj'
      obtain ⟨hj'lt, hj'content⟩ := hj'
      have hocc : (slotGet slots j').2 ≠ 0 := by
        rw [hj'content]
        have := hoffs e he
        unfold pairOf
        simp only
        omega
      rcases spec.occWhere j' (by rw [← hS]; exact hj'lt) hocc with hbase | ⟨i', hi', heq⟩
      · rw [slotGet_replicate] at hbase
        exact absurd rfl hbase
      · have hplaced := spec.placedAt i' hi'
        rw [← heq] at hplaced
        rw [hj'content] at hplaced
        have hoffeq : (entries.getD i' ⟨0, 0⟩).offset = (entries.getD i ⟨0, 0⟩).offset := by
          have h2 := congrArg Prod.snd hplaced
          unfold pairOf at h2
          simp only at h2
          rw [hegetD]
          exact h2.symm
        have : i' = i := hdistinct i' i hi' hi hoffeq
        rw [heq, this, hjdef, hegetD]

/-! ## Reader-side decoding lemmas -/

theorem hasBytes_shift (buf : List Nat) (pos pos' : Nat) (data : List Nat)
    (h : hasBytes buf pos data) (he : pos = pos') : hasBytes buf pos' data :=
  he ▸ h

theorem headerBytes_decode (tes : List TableEntry) :
    ∀ i < tes.length,
      ((headerBytes tes).drop (i * 16)).take 8 = u64le ((tes.getD i ⟨0, 0⟩).offset) ∧
      ((headerBytes tes).drop (i * 16 + 8)).take 8 = u64le ((tes.getD i ⟨0, 0⟩).length) := by
  induction tes with
  | nil => intro i hi; simp at hi
  | cons te rest ih =>
    intro i hi
    rw [headerBytes_cons]
    rcases i with _ | i
    · constructor
      · rw [Nat.zero_mul, List.drop_zero,
          List.take_append_of_le_length (by simp [u64le]),
          List.take_left' (u64le_length _)]
        rfl
      · rw [Nat.zero_mul, Nat.zero_add,
          List.drop_append_of_le_length (by simp [u64le]),
          List.drop_left' (u64le_length _),
          List.take_left' (u64le_length _)]
        rfl
    · have h16 : (i + 1) * 16 = (u64le te.offset ++ u64le te.length).length + i * 16 := by
        simp [u64le]
        omega
      rw [h16,
        show (u64le te.offset ++ u64le te.length).length + i * 16 + 8
          = (u64le te.offset ++ u64le te.length).length + (i * 16 + 8) from by omega,
        List.drop_append, List.drop_append]
      exact ih i (by simpa using hi)

theorem readHeader_of_hasBytes (buf : List Nat) (tes : List TableEntry)
    (h : hasBytes buf 0 (headerBytes tes)) (hlen : tes.length = 256)
    (hbound : ∀ te ∈ tes, te.offset < 2 ^ 64 ∧ te.length < 2 ^ 64) :
    readHeader buf = some tes := by
  have hhb : (headerBytes tes).length = HEADER_SIZE := by
    rw [headerBytes_length, hlen]
    rfl
  unfold readHeader
  rw [show HEADER_SIZE = (headerBytes tes).length from hhb.symm,
    readExactAt_of_hasBytes buf 0 (headerBytes tes) h]
  rw [Option.map_some']
  congr 1
  apply List.ext_getElem
  · simp [hlen]
  · intro i h1 h2
    have hi : i < 256 := by simpa using h1
    have hi' : i < tes.length := by omega
    have hdec := headerBytes_decode tes i hi'
    have hmem : tes.getD i ⟨0, 0⟩ ∈ tes := by
      rw [List.getD_eq_getElem _ _ hi']
      exact List.getElem_mem _
    have hb := hbound _ hmem
    simp only [List.getElem_map, List.getElem_range]
    rw [hdec.1, hdec.2, leNat_u64le, leNat_u64le,
      Nat.mod_eq_of_lt hb.1, Nat.mod_eq_of_lt hb.2]
    rw [← List.getD_eq_getElem tes ⟨0, 0⟩ hi']

theorem slot_read (buf : List Nat) (p : Nat) (slots : List (Nat × Nat))
    (h : hasBytes buf p (slotsBytes slots)) (j : Nat) (hj : j < slots.length)
    (h1 : (slotGet slots j).1 < 2 ^ 64) (h2 : (slotGet slots j).2 < 2 ^ 64) :
    ∃ bs, readExactAt buf (p + j * 16) 16 = some bs ∧
      leNat (bs.take 8) = (slotGet slots j).1 ∧
      leNat (bs.drop 8) = (slotGet slots j).2 := by
  have hchunk := hasBytes_slotsBytes buf p slots h j hj
  have hlen16 : (u64le (slotGet slots j).1 ++ u64le (slotGet slots j).2).length = 16 := by
    simp [u64le]
  refine ⟨u64le (slotGet slots j).1 ++ u64le (slotGet slots j).2, ?_, ?_, ?_⟩
  · rw [show p + j * 16 = p + 16 * j from by omega]
    rw [show (16 : Nat) = (u64le (slotGet slots j).1 ++ u64le (slotGet slots j).2).length
      from hlen16.symm]
    exact readExactAt_of_hasBytes _ _ _ hchunk
  · rw [List.take_left' (u64le_length _), leNat_u64le, Nat.mod_eq_of_lt h1]
  · rw [List.drop_left' (u64le_length _), leNat_u64le, Nat.mod_eq_of_lt h2]

/-- The behaviour of `get_value_at` on a well-formed record. -/
theorem getValueAt_spec (c : Cdb) (r : Rec) (key : List Nat)
    (h : hasBytes c.reader r.off (recBytes r))
    (hk : r.key.length < 2 ^ 32) (hv : r.val.length < 2 ^ 32) :
    getValueAt c r.off key = .ok (if r.key = key then some r.val else none) := by
  unfold recBytes at h
  rw [hasBytes_append] at h
  obtain ⟨hA, hval⟩ := h
  rw [hasBytes_append] at hA
  obtain ⟨hB, hkey⟩ := hA
  simp only [List.length_append, u32le_length] at hval hkey
  have hkey' : hasBytes c.reader (r.off + 8) r.key :=
    hasBytes_shift _ _ _ _ hkey (by omega)
  have hval' : hasBytes c.reader (r.off + 8 + r.key.length) r.val :=
    hasBytes_shift _ _ _ _ hval (by omega)
  have htuple : read_tuple c.reader r.off = some (r.key.length, r.val.length) := by
    unfold read_tuple
    have hlen8 : (u32le r.key.length ++ u32le r.val.length).length = 8 := by simp [u32le]
    rw [show (8 : Nat) = (u32le r.key.length ++ u32le r.val.length).length from hlen8.symm,
      readExactAt_of_hasBytes _ _ _ hB, Option.map_some']
    rw [List.take_left' (u32le_length _), List.drop_left' (u32le_length _),
      leNat_u32le, leNat_u32le, Nat.mod_eq_of_lt hk, Nat.mod_eq_of_lt hv]
  unfold getValueAt
  rw [htuple]
  simp only [ne_eq]
  by_cases hlen : r.key.length = key.length
  · rw [if_neg (by omega)]
    by_cases hempty : key.isEmpty
    · have hkeynil : key = [] := List.isEmpty_iff.mp hempty
      have hrkeynil : r.key = [] := by
        rw [hkeynil] at hlen
        exact List.length_eq_zero.mp hlen
      rw [if_pos hempty]
      have hvread : readExactAt c.reader (r.off + 8) r.val.length = some r.val := by
        have heq8 : r.off + 8 + r.key.length = r.off + 8 := by rw [hrkeynil]; rfl
        rw [← heq8]
        exact readExactAt_of_hasBytes _ _ _ hval'
      rw [hvread]
      rw [if_pos (by rw [hrkeynil, hkeynil])]
    · rw [if_neg hempty]
      have hkread : readExactAt c.reader (r.off + 8) r.key.length = some r.key :=
        readExactAt_of_hasBytes _ _ _ hkey'
      rw [hkread]
      simp only []
      by_cases hkeq : r.key = key
      · rw [if_neg (by simp [hkeq]),
          readExactAt_of_hasBytes _ _ _ hval', if_pos hkeq]
      · rw [if_pos (by simp [hkeq]), if_neg hkeq]
  · rw [if_pos (by omega)]
    rw [if_neg (fun hcontra => hlen (by rw [hcontra]))]

/-- The default record used for index access. -/
def dRec : Rec := ⟨0, [], []⟩

/-- Everything the probe loop needs to know about one subtable. -/
structure TableCtx (c : Cdb) (recs : List Rec) (entries : List Entry)
    (slots : List (Nat × Nat)) (ds : List Nat) (S p : Nat) : Prop where
  hentries : entries = recs.map entryOf
  hS : slots.length = S
  hS0 : 0 < S
  ins : InsOut S (List.replicate S (0, 0)) entries slots ds
  hasSlots : hasBytes c.reader p (slotsBytes slots)
  recsBytes : ∀ r ∈ recs, hasBytes c.reader r.off (recBytes r)
  recsBounds : ∀ r ∈ recs, 4096 ≤ r.off ∧ r.off < 2 ^ 64 ∧
    r.key.length < 2 ^ 32 ∧ r.val.length < 2 ^ 32
  hashBound : ∀ r ∈ recs, hashBytes r.key < 2 ^ 64

theorem tableCtx_len {c recs entries slots ds S p}
    (ctx : TableCtx c recs entries slots ds S p) :
    entries.length = recs.length := by
  rw [ctx.hentries, List.length_map]

theorem tableCtx_entry_rec {c recs entries slots ds S p}
    (ctx : TableCtx c recs entries slots ds S p) :
    ∀ i < entries.length, entries.getD i ⟨0, 0⟩ = entryOf (recs.getD i dRec) ∧
      recs.getD i dRec ∈ recs := by
  intro i hi
  have hir : i < recs.length := by rw [← tableCtx_len ctx]; exact hi
  constructor
  · calc entries.getD i ⟨0, 0⟩ = (recs.map entryOf).getD i ⟨0, 0⟩ := by rw [ctx.hentries]
      _ = entryOf (recs.getD i dRec) := by
          rw [List.getD_eq_getElem?_getD, List.getElem?_map,
            List.getElem?_eq_getElem hir, List.getD_eq_getElem _ _ hir]
          rfl
  · rw [List.getD_eq_getElem _ _ hir]
    exact List.getElem_mem _

theorem tableCtx_slot_cases {c recs entries slots ds S p}
    (ctx : TableCtx c recs entries slots ds S p) :
    ∀ j < S, slotGet slots j = (0, 0) ∨
      ∃ i < entries.length, slotGet slots j = pairOf (entries.getD i ⟨0, 0⟩) ∧
        j = (startOf S (entries.getD i ⟨0, 0⟩) + ds.getD i 0) % S := by
  intro j hj
  by_cases hocc : (slotGet slots j).2 = 0
  · left
    rcases ctx.ins.content j hj with hsame | ⟨i, hi, hpair⟩
    · rw [hsame, slotGet_replicate]
    · exfalso
      obtain ⟨herec, hmem⟩ := tableCtx_entry_rec ctx i hi
      have hb := ctx.recsBounds _ hmem
      rw [hpair, herec] at hocc
      unfold pairOf entryOf at hocc
      simp only at hocc
      omega
  · right
    rcases ctx.ins.occWhere j hj hocc with hbase | ⟨i, hi, heq⟩
    · rw [slotGet_replicate] at hbase
      exact absurd rfl hbase
    · refine ⟨i, hi, ?_, heq⟩
      rw [heq]
      exact ctx.ins.placedAt i hi

theorem tableCtx_slot_bounds {c recs entries slots ds S p}
    (ctx : TableCtx c recs entries slots ds S p) :
    ∀ j < S, (slotGet slots j).1 < 2 ^ 64 ∧ (slotGet slots j).2 < 2 ^ 64 := by
  intro j hj
  rcases tableCtx_slot_cases ctx j hj with hzero | ⟨i, hi, hpair, _⟩
  · rw [hzero]
    simp
  · obtain ⟨herec, hmem⟩ := tableCtx_entry_rec ctx i hi
    have hb := ctx.recsBounds _ hmem
    have hh := ctx.hashBound _ hmem
    rw [hpair, herec]
    unfold pairOf entryOf
    simp only
    exact ⟨hh, by omega⟩

/-- One probe step reads its slot successfully and sees the stored pair. -/
theorem tableCtx_read_slot {c recs entries slots ds S p}
    (ctx : TableCtx c recs entries slots ds S p) (j : Nat) (hj : j < S) :
    ∃ bs, readExactAt c.reader (p + j * 16) 16 = some bs ∧
      leNat (bs.take 8) = (slotGet slots j).1 ∧
      leNat (bs.drop 8) = (slotGet slots j).2 := by
  obtain ⟨hb1, hb2⟩ := tableCtx_slot_bounds ctx j hj
  exact slot_read c.reader p slots ctx.hasSlots j (by rw [ctx.hS]; exact hj) hb1 hb2

/-- The probe loop on a subtable holding no record with the queried key
always answers "not found". -/
theorem getAux_no_match {c recs entries slots ds S p}
    (ctx : TableCtx c recs entries slots ds S p) (key : List Nat)
    (hnokey : ∀ r ∈ recs, r.key ≠ key) :
    ∀ (count s0 i : Nat),
      getAux c key (hashBytes key) s0 ⟨p, S⟩ i count = .ok none := by
  intro count
  induction count with
  | zero =>
    intro s0 i
    rfl
  | succ count ih =>
    intro s0 i
    unfold getAux
    have hj : (s0 + i) % S < S := Nat.mod_lt _ ctx.hS0
    obtain ⟨bs, hread, hbs1, hbs2⟩ := tableCtx_read_slot ctx ((s0 + i) % S) hj
    simp only
    rw [hread]
    simp only [hbs1, hbs2]
    rcases tableCtx_slot_cases ctx ((s0 + i) % S) hj with hzero | ⟨i2, hi2, hpair, _⟩
    · rw [hzero]
      simp
    · obtain ⟨herec, hmem⟩ := tableCtx_entry_rec ctx i2 hi2
      have hb := ctx.recsBounds _ hmem
      rw [hpair, herec]
      unfold pairOf entryOf
      simp only
      rw [if_neg (by intro hcontra; omega)]
      by_cases hhash : hashBytes (recs.getD i2 dRec).key = hashBytes key
      · rw [if_pos hhash]
        rw [getValueAt_spec c (recs.getD i2 dRec) key (ctx.recsBytes _ hmem)
          (by omega) (by omega)]
        rw [if_neg (hnokey _ hmem)]
        exact ih s0 (i + 1)
      · rw [if_neg hhash]
        exact ih s0 (i + 1)

/-- The probe loop returns the value of the first record placed for the
queried key: walking distances `dcur ≤ d*` toward the placed slot of the
first matching record, every intermediate slot is occupied and either
carries a different hash or a different key. -/
theorem getAux_match {c recs entries slots ds S p}
    (ctx : TableCtx c recs entries slots ds S p) (key : List Nat)
    (iStar : Nat) (hiStar : iStar < entries.length)
    (hkeyi : (recs.getD iStar dRec).key = key)
    (hfirst : ∀ i' < iStar, (recs.getD i' dRec).key ≠ key) :
    ∀ (gap dcur : Nat), dcur ≤ ds.getD iStar 0 → ds.getD iStar 0 - dcur = gap →
      getAux c key (hashBytes key) ((hashBytes key >>> 8) % S) ⟨p, S⟩ dcur (S - dcur)
        = .ok (some (recs.getD iStar dRec).val) := by
  have hdStar : ds.getD iStar 0 < S := ctx.ins.dlt iStar hiStar
  obtain ⟨herecS, hmemS⟩ := tableCtx_entry_rec ctx iStar hiStar
  have hstartS : startOf S (entries.getD iStar ⟨0, 0⟩) = (hashBytes key >>> 8) % S := by
    rw [herecS]
    unfold startOf entryOf
    simp only
    rw [hkeyi]
  intro gap
  induction gap with
  | zero =>
    intro dcur hle hgap
    have hdcur : dcur = ds.getD iStar 0 := by omega
    obtain ⟨cnt, hcnt⟩ : ∃ cnt, S - dcur = cnt + 1 := ⟨S - dcur - 1, by omega⟩
    rw [hcnt]
    unfold getAux
    have hj : ((hashBytes key >>> 8) % S + dcur) % S < S := Nat.mod_lt _ ctx.hS0
    obtain ⟨bs, hread, hbs1, hbs2⟩ :=
      tableCtx_read_slot ctx (((hashBytes key >>> 8) % S + dcur) % S) hj
    simp only
    rw [hread]
    simp only [hbs1, hbs2]
    have hplaced := ctx.ins.placedAt iStar hiStar
    rw [hstartS, ← hdcur] at hplaced
    rw [hplaced, herecS]
    unfold pairOf entryOf
    simp only
    have hb := ctx.recsBounds _ hmemS
    rw [if_neg (by intro hcontra; omega), hkeyi, if_pos rfl]
    rw [getValueAt_spec c (recs.getD iStar dRec) key (ctx.recsBytes _ hmemS)
      (by omega) (by omega)]
    rw [if_pos hkeyi]
  | succ gap ih =>
    intro dcur hle hgap
    have hltS : dcur < S := by omega
    obtain ⟨cnt, hcnt⟩ : ∃ cnt, S - dcur = cnt + 1 := ⟨S - dcur - 1, by omega⟩
    rw [hcnt]
    unfold getAux
    have hj : ((hashBytes key >>> 8) % S + dcur) % S < S := Nat.mod_lt _ ctx.hS0
    obtain ⟨bs, hread, hbs1, hbs2⟩ :=
      tableCtx_read_slot ctx (((hashBytes key >>> 8) % S + dcur) % S) hj
    simp only
    rw [hread]
    simp only [hbs1, hbs2]
    have hoccpath := ctx.ins.path iStar hiStar dcur (by omega)
    rw [hstartS] at hoccpath
    rcases tableCtx_slot_cases ctx (((hashBytes key >>> 8) % S + dcur) % S) hj with
      hzero | ⟨i2, hi2, hpair, hplace⟩
    · exfalso
      rw [hzero] at hoccpath
      exact hoccpath rfl
    · obtain ⟨herec2, hmem2⟩ := tableCtx_entry_rec ctx i2 hi2
      have hb2 := ctx.recsBounds _ hmem2
      rw [hpair, herec2]
      unfold pairOf entryOf
      simp only
      rw [if_neg (by intro hcontra; omega)]
      have hnext : getAux c key (hashBytes key) ((hashBytes key >>> 8) % S) ⟨p, S⟩
          (dcur + 1) cnt = .ok (some (recs.getD iStar dRec).val) := by
        have hrec := ih (dcur + 1) (by omega) (by omega)
        rw [show S - (dcur + 1) = cnt from by omega] at hrec
        exact hrec
      by_cases hhash : hashBytes (recs.getD i2 dRec).key = hashBytes key
      · rw [if_pos hhash]
        rw [getValueAt_spec c (recs.getD i2 dRec) key (ctx.recsBytes _ hmem2)
          (by omega) (by omega)]
        have hkeyne : (recs.getD i2 dRec).key ≠ key := by
          intro hkeyeq
          have hstart2 : startOf S (entries.getD i2 ⟨0, 0⟩)
              = (hashBytes key >>> 8) % S := by
            rw [herec2]
            unfold startOf entryOf
            simp only
            rw [hkeyeq]
          rw [hstart2] at hplace
          have hdd := mod_window_inj S (ds.getD i2 0) dcur ((hashBytes key >>> 8) % S)
            (ctx.ins.dlt i2 hi2) hltS hplace.symm
          rcases Nat.lt_trichotomy i2 iStar with hlt | heq | hgt
          · exact hfirst i2 hlt hkeyeq
          · subst heq
            omega
          · have hord := ctx.ins.ordered iStar i2 hgt hi2 (by rw [hstart2, hstartS])
            omega
        rw [if_neg hkeyne]
        exact hnext
      · rw [if_neg hhash]
        exact hnext

/-! ## Lookup correspondence and the master round-trip theorem -/

theorem find?_filter_of_imp {α : Type} (l : List α) (p q : α → Bool)
    (h : ∀ x, p x = true → q x = true) :
    (l.filter q).find? p = l.find? p := by
  induction l with
  | nil => rfl
  | cons x l ih =>
    rw [List.filter_cons]
    by_cases hq : q x = true
    · rw [if_pos hq]
      by_cases hp : p x = true
      · rw [List.find?_cons_of_pos _ hp, List.find?_cons_of_pos _ hp]
      · rw [List.find?_cons_of_neg _ (by simpa using hp),
          List.find?_cons_of_neg _ (by simpa using hp)]
        exact ih
    · rw [if_neg hq]
      have hp : ¬ p x = true := fun hpx => hq (h x hpx)
      rw [List.find?_cons_of_neg _ (by simpa using hp)]
      exact ih

theorem find?_recListAux (pairs : List (List Nat × List Nat)) (key : List Nat) :
    ∀ (pos : Nat),
      ((recListAux pairs pos).find? (fun r => r.key == key)).map (fun r => (r.key, r.val))
        = pairs.find? (fun q => q.1 == key) := by
  induction pairs with
  | nil => intro pos; rfl
  | cons q qs ih =>
    intro pos
    unfold recListAux
    by_cases hp : (q.1 == key) = true
    · simp only [List.find?_cons, hp]
      simp
    · have hp' : (q.1 == key) = false := by simpa using hp
      simp only [List.find?_cons, hp']
      exact ih _

theorem find?_idx_spec {α : Type} (l : List α) (p : α → Bool) (x d : α)
    (h : l.find? p = some x) :
    ∃ i < l.length, l.getD i d = x ∧ p x = true ∧
      ∀ i' < i, p (l.getD i' d) = false := by
  induction l with
  | nil => exact absurd h (by simp)
  | cons y l ih =>
    by_cases hp : p y = true
    · rw [List.find?_cons_of_pos _ hp, Option.some_inj] at h
      exact ⟨0, by simp, by simpa using h, h ▸ hp, by simp⟩
    · rw [List.find?_cons_of_neg _ (by simpa using hp)] at h
      obtain ⟨i, hi, hget, hpx, hmin⟩ := ih h
      refine ⟨i + 1, by simpa using hi, hget, hpx, ?_⟩
      intro i' hi'
      rcases i' with _ | i'
      · simpa using hp
      · exact hmin i' (by omega)

/-- The master theorem: build a database from any put sequence, reopen it,
and `get` returns the value of the first put with the queried key. -/
theorem get_after_build (pairs : List (List Nat × List Nat))
    (hkv : ∀ q ∈ pairs, q.1.length < 2 ^ 32 ∧ q.2.length < 2 ^ 32 ∧ ∀ b ∈ q.1, b < 2 ^ 64)
    (hsize : offsetAfter pairs + 32 * pairs.length < 2 ^ 64) :
    ∃ w' c, buildDB pairs = some w' ∧ Cdb.new w'.writer = some c ∧
      ∀ key, c.get key = .ok ((pairs.find? (fun q => q.1 == key)).map Prod.snd) := by
  have inv := winv_buildW pairs
  obtain ⟨w', tes, pos', hfin, hfinal, htlen, hposU, hposL, hHeadBytes, hrecsBytes,
    hemptyT, hfullT⟩ := finalize_buildW_spec pairs
  -- bounds on every decoded directory entry
  have htesBound : ∀ te ∈ tes, te.offset < 2 ^ 64 ∧ te.length < 2 ^ 64 := by
    intro te hte
    obtain ⟨t, ht, hget⟩ := List.mem_iff_getElem.mp hte
    have ht256 : t < 256 := by omega
    have hgetD : tes.getD t ⟨0, 0⟩ = te := by
      rw [List.getD_eq_getElem _ _ ht, hget]
    by_cases hcase : (buildW pairs).entries_by_table t = []
    · rw [hemptyT t ht256 hcase] at hgetD
      rw [← hgetD]
      simp
    · obtain ⟨slots, ds, p, _, _, hteEq, hple, hpri, _⟩ := hfullT t ht256 hcase
      rw [hteEq] at hgetD
      rw [← hgetD]
      simp only
      omega
  have hCnew : Cdb.new w'.writer = some ⟨w'.writer, tes⟩ := by
    unfold Cdb.new
    rw [readHeader_of_hasBytes w'.writer tes hHeadBytes htlen htesBound]
    rfl
  -- record-level facts shared by both cases
  have hreckv : ∀ r ∈ recList pairs, (r.key, r.val) ∈ pairs := by
    intro r hr
    have hmap := recList_map_keyval pairs HEADER_SIZE
    rw [show recListAux pairs HEADER_SIZE = recList pairs from rfl] at hmap
    rw [← hmap]
    exact List.mem_map_of_mem _ hr
  have hrecBounds : ∀ r ∈ recList pairs, 4096 ≤ r.off ∧ r.off < 2 ^ 64 ∧
      r.key.length < 2 ^ 32 ∧ r.val.length < 2 ^ 32 := by
    intro r hr
    have hb := recList_mem_bounds pairs r hr
    have hk := hkv _ (hreckv r hr)
    simp only at hk
    unfold HEADER_SIZE at hb
    simp only [recSize] at hb
    exact ⟨by omega, by omega, hk.1, hk.2.1⟩
  have hrecHash : ∀ r ∈ recList pairs, hashBytes r.key < 2 ^ 64 := by
    intro r hr
    have hk := hkv _ (hreckv r hr)
    exact hashBytes_lt _ hk.2.2
  -- in-table membership of each key-matching record
  have hkeyInTable : ∀ (key : List Nat) (r : Rec), r ∈ recList pairs → r.key = key →
      r ∈ tableRecs pairs (hashBytes key % 256) := by
    intro key r hr hkey
    rw [mem_tableRecs]
    exact ⟨hr, by rw [hkey]⟩
  refine ⟨w', ⟨w'.writer, tes⟩, hfin, hCnew, ?_⟩
  intro key
  unfold Cdb.get
  simp only
  by_cases hcase : (buildW pairs).entries_by_table (hashBytes key % 256) = []
  · -- empty subtable: not found, and no pair can have this key
    rw [hemptyT _ (Nat.mod_lt _ (by omega)) hcase]
    rw [if_pos rfl]
    have hnone : pairs.find? (fun q => q.1 == key) = none := by
      rw [List.find?_eq_none]
      intro q hq hbeq
      have hkeyq : q.1 = key := by simpa using hbeq
      obtain ⟨r, hrmem, hrq⟩ := List.mem_map.mp (by
        rw [← recList_map_keyval pairs HEADER_SIZE] at hq
        exact hq)
      have hrkey : r.key = key := by
        rw [← hkeyq, ← hrq]
      have hrt := hkeyInTable key r hrmem hrkey
      rw [inv.tables _] at hcase
      have := List.map_eq_nil.mp hcase
      rw [this] at hrt
      exact absurd hrt (List.not_mem_nil r)
    rw [hnone]
    rfl
  · -- populated subtable
    obtain ⟨slots, ds, p, hbuild, hins, hteEq, hple, hpri, hbytes⟩ :=
      hfullT _ (Nat.mod_lt _ (by omega)) hcase
    set t := hashBytes key % 256 with htdef
    set entries := (buildW pairs).entries_by_table t with hentdef
    set S := entries.length * 2 with hSdef
    have hS0 : 0 < S := by
      have := List.length_pos.mpr hcase
      omega
    have hSlen : slots.length = S := hins.len
    have ctx : TableCtx ⟨w'.writer, tes⟩ (tableRecs pairs t) entries slots ds S p :=
      { hentries := inv.tables t
        hS := hSlen
        hS0 := hS0
        ins := hins
        hasSlots := hbytes
        recsBytes := fun r hr => hrecsBytes r ((mem_tableRecs pairs t r).mp hr).1
        recsBounds := fun r hr => hrecBounds r ((mem_tableRecs pairs t r).mp hr).1
        hashBound := fun r hr => hrecHash r ((mem_tableRecs pairs t r).mp hr).1 }
    rw [hteEq]
    rw [if_neg (by simp only; omega)]
    simp only
    rw [hSlen]
    -- connect the query to the subtable record list
    have hfindEq : (tableRecs pairs t).find? (fun r => r.key == key)
        = (recList pairs).find? (fun r => r.key == key) := by
      unfold tableRecs
      apply find?_filter_of_imp
      intro r hp
      have : r.key = key := by simpa using hp
      rw [this, htdef]
      simp
    have hRHS : (pairs.find? (fun q => q.1 == key)).map Prod.snd
        = ((tableRecs pairs t).find? (fun r => r.key == key)).map (fun r => r.val) := by
      rw [hfindEq, ← find?_recListAux pairs key HEADER_SIZE]
      rw [show recListAux pairs HEADER_SIZE = recList pairs from rfl]
      rw [Option.map_map]
      rfl
    rcases hfind : (tableRecs pairs t).find? (fun r => r.key == key) with _ | rStar
    · -- no matching record anywhere
      have hnokey : ∀ r ∈ tableRecs pairs t, r.key ≠ key := by
        intro r hr hkey
        have := List.find?_eq_none.mp hfind r hr
        simp [hkey] at this
      rw [getAux_no_match ctx key hnokey S ((hashBytes key >>> 8) % S) 0]
      rw [hRHS, hfind]
      rfl
    · -- first matching record
      obtain ⟨iStar, hiStar, hgetD, hpStar, hmin⟩ :=
        find?_idx_spec (tableRecs pairs t) _ rStar dRec hfind
      have hlenEq : entries.length = (tableRecs pairs t).length := by
        rw [hentdef, inv.tables t, List.length_map]
      have hkeyStar : (tableRecs pairs t).getD iStar dRec = rStar := hgetD
      have hkeyi : ((tableRecs pairs t).getD iStar dRec).key = key := by
        rw [hkeyStar]
        simpa using hpStar
      have hfirst : ∀ i' < iStar, ((tableRecs pairs t).getD i' dRec).key ≠ key := by
        intro i' hi' hkeyeq
        have h2 := hmin i' hi'
        rw [hkeyeq] at h2
        simp at h2
      have := getAux_match ctx key iStar (by omega) hkeyi hfirst
        (ds.getD iStar 0) 0 (by omega) (by omega)
      rw [Nat.sub_zero] at this
      rw [this, hRHS, hfind, hkeyStar]
      rfl

/-! ## Claims C1 and C2: end-to-end lookup -/

theorem find?_of_nodup (pairs : List (List Nat × List Nat))
    (hdist : (pairs.map Prod.fst).Nodup) :
    ∀ q ∈ pairs, pairs.find? (fun r => r.1 == q.1) = some q := by
  induction pairs with
  | nil =>
    intro q hq
    exact absurd hq (List.not_mem_nil q)
  | cons p ps ih =>
    intro q hq
    rw [List.map_cons, List.nodup_cons] at hdist
    rcases List.mem_cons.mp hq with rfl | hq2
    · simp [List.find?_cons]
    · have hne : (p.1 == q.1) = false := by
        rw [beq_eq_false_iff_ne]
        intro heq
        rw [heq] at hdist
        exact hdist.1 (List.mem_map_of_mem Prod.fst hq2)
      simp only [List.find?_cons, hne]
      exact ih hdist.2 q hq2

theorem find?_of_first {α : Type} (l : List α) (p : α → Bool) (d : α) :
    ∀ i, i < l.length → p (l.getD i d) = true →
      (∀ j < i, p (l.getD j d) = false) →
      l.find? p = some (l.getD i d) := by
  induction l with
  | nil =>
    intro i hi
    simp at hi
  | cons a l ih =>
    intro i hi hp hmin
    match i with
    | 0 =>
      simp only [List.getD_cons_zero] at hp ⊢
      simp only [List.find?_cons, hp]
    | i2 + 1 =>
      have h0 : p a = false := by
        have := hmin 0 (by omega)
        simpa using this
      simp only [List.getD_cons_succ] at hp ⊢
      simp only [List.find?_cons, h0]
      refine ih i2 ?_ hp ?_
      · simp only [List.length_cons] at hi
        omega
      · intro j hj
        have := hmin (j + 1) (by omega)
        simpa using this

/-- Claim C1: building a database from pairs with pairwise distinct keys
(put each pair in order, then finalize) and reopening it, `get` returns
the stored value for every inserted key and not-found for every other
key.  The key/value bound hypotheses reflect the u32 length fields and
u64 arithmetic of the on-disk format. -/
theorem c1_build_get_roundtrip (pairs : List (List Nat × List Nat))
    (hkv : ∀ q ∈ pairs, q.1.length < 2 ^ 32 ∧ q.2.length < 2 ^ 32 ∧ ∀ b ∈ q.1, b < 2 ^ 64)
    (hsize : offsetAfter pairs + 32 * pairs.length < 2 ^ 64)
    (hdist : (pairs.map Prod.fst).Nodup) :
    ∃ w' c, buildDB pairs = some w' ∧ Cdb.new w'.writer = some c ∧
      (∀ q ∈ pairs, c.get q.1 = .ok (some q.2)) ∧
      (∀ key, key ∉ pairs.map Prod.fst → c.get key = .ok none) := by
  obtain ⟨w', c, h1, h2, h3⟩ := get_after_build pairs hkv hsize
  refine ⟨w', c, h1, h2, ?_, ?_⟩
  · intro q hq
    rw [h3 q.1, find?_of_nodup pairs hdist q hq]
    rfl
  · intro key hkey
    rw [h3 key]
    have hnone : pairs.find? (fun r => r.1 == key) = none := by
      rw [List.find?_eq_none]
      intro q hq hbeq
      have hq1 : q.1 = key := by simpa using hbeq
      rw [← hq1] at hkey
      exact hkey (List.mem_map_of_mem Prod.fst hq)
    rw [hnone]
    rfl

/-- Claim C1 witness: one pair, key `[107]`, value `[118]`. -/
theorem c1_build_get_roundtrip_witness :
    ∃ w' c, buildDB [([107], [118])] = some w' ∧ Cdb.new w'.writer = some c ∧
      (∀ q ∈ ([([107], [118])] : List (List Nat × List Nat)), c.get q.1 = .ok (some q.2)) ∧
      (∀ key, key ∉ ([([107], [118])] : List (List Nat × List Nat)).map Prod.fst →
        c.get key = .ok none) :=
  c1_build_get_roundtrip [([107], [118])] (by decide) (by decide) (by decide)

/-- Claim C2: with duplicate keys, `get` returns the value of the first
put for that key: if position `i` holds the first pair whose key is
`key`, the reopened database answers `get key` with that pair's value. -/
theorem c2_duplicate_first_put_wins (pairs : List (List Nat × List Nat))
    (hkv : ∀ q ∈ pairs, q.1.length < 2 ^ 32 ∧ q.2.length < 2 ^ 32 ∧ ∀ b ∈ q.1, b < 2 ^ 64)
    (hsize : offsetAfter pairs + 32 * pairs.length < 2 ^ 64) :
    ∃ w' c, buildDB pairs = some w' ∧ Cdb.new w'.writer = some c ∧
      ∀ key i, i < pairs.length →
        (pairs.getD i ([], [])).1 = key →
        (∀ j < i, (pairs.getD j ([], [])).1 ≠ key) →
        c.get key = .ok (some (pairs.getD i ([], [])).2) := by
  obtain ⟨w', c, h1, h2, h3⟩ := get_after_build pairs hkv hsize
  refine ⟨w', c, h1, h2, ?_⟩
  intro key i hi hkey hfirst
  rw [h3 key]
  rw [find?_of_first pairs (fun r => r.1 == key) ([], []) i hi (by simpa using hkey)
    (fun j hj => by simpa using hfirst j hj)]
  rfl

/-- Claim C2 witness: `[107]` put twice with values `[118]` then `[119]`. -/
theorem c2_duplicate_first_put_wins_witness :
    ∃ w' c, buildDB [([107], [118]), ([107], [119])] = some w' ∧
      Cdb.new w'.writer = some c ∧
      ∀ key i, i < ([([107], [118]), ([107], [119])] : List (List Nat × List Nat)).length →
        (([([107], [118]), ([107], [119])] : List (List Nat × List Nat)).getD i ([], [])).1 = key →
        (∀ j < i, (([([107], [118]), ([107], [119])] : List (List Nat × List Nat)).getD j ([], [])).1 ≠ key) →
        c.get key = .ok (some (([([107], [118]), ([107], [119])] : List (List Nat × List Nat)).getD i ([], [])).2) :=
  c2_duplicate_first_put_wins [([107], [118]), ([107], [119])] (by decide) (by decide)

/-- Claim C6 witness: the single pair `([107], [118])` hashes to subtable
`206`. -/
theorem c6_slot_array_contents_witness :
    206 < 256 ∧ (buildW [([107], [118])]).entries_by_table 206 ≠ [] ∧
    (∃ slots, buildSlots ((buildW [([107], [118])]).entries_by_table 206) = some slots ∧
      occCount slots = (tableRecs [([107], [118])] 206).length ∧
      (∀ e ∈ (buildW [([107], [118])]).entries_by_table 206, 4096 ≤ e.offset) ∧
      (∀ e ∈ (buildW [([107], [118])]).entries_by_table 206,
        ∃! j, j < slots.length ∧ slotGet slots j = pairOf e)) :=
  ⟨by decide, by decide,
   c6_slot_array_contents [([107], [118])] 206 (by decide) (by decide)⟩

/-! ## Claim C4: the iterator versus the on-disk record layout -/

theorem finalize_gap_zero (pairs : List (List Nat × List Nat)) (w : CdbWriter)
    (hfin : finalize (buildW pairs) = some w) :
    ∀ i, (buildW pairs).writer.length ≤ i → i < offsetAfter pairs →
      byteAt w.writer i = 0 := by
  have inv := winv_buildW pairs
  set wb := buildW pairs with hwdef
  set ts := (List.range 256).map wb.entries_by_table with htsdef
  have hoffm : ∀ es ∈ ts, ∀ e ∈ es, e.offset ≠ 0 := by
    intro es hes e he
    rw [htsdef] at hes
    obtain ⟨t, _, rfl⟩ := List.mem_map.mp hes
    rw [inv.tables t] at he
    obtain ⟨r, hr, rfl⟩ := List.mem_map.mp he
    have hrl := (mem_tableRecs pairs t r).mp hr
    have hb := recList_mem_bounds pairs r hrl.1
    unfold entryOf HEADER_SIZE at *
    simp only
    omega
  obtain ⟨tes, pos', bufL, hlay, spec⟩ := layoutAux_spec ts
    wb.current_data_offset wb.writer hoffm (by rw [inv.cursor]; exact inv.lenUB)
  have hts_len : ts.length = 256 := by rw [htsdef]; simp
  have hfin_eq : finalize wb = some
      { writer := writeAt bufL 0 (headerBytes tes)
        entries_by_table := wb.entries_by_table
        is_finalized := true
        current_data_offset := wb.current_data_offset } := by
    unfold finalize writeFooterAndHeader
    rw [if_neg (by rw [inv.notFin]; exact Bool.false_ne_true), ← htsdef, hlay]
  rw [hfin_eq] at hfin
  have hw : w = { writer := writeAt bufL 0 (headerBytes tes)
                  entries_by_table := wb.entries_by_table
                  is_finalized := true
                  current_data_offset := wb.current_data_offset } :=
    (Option.some_inj.mp hfin).symm
  intro i h1 h2
  have hHS : HEADER_SIZE ≤ i := by
    have := inv.lenLB
    omega
  rw [hw]
  simp only
  rw [byteAt_writeAt]
  rw [if_neg (by
    rw [headerBytes_length, spec.tlen, hts_len]
    unfold HEADER_SIZE at hHS
    omega)]
  rw [spec.preserved i (by rw [inv.cursor]; omega)]
  simp only [byteAt, List.getD_eq_getElem?_getD]
  rw [List.getElem?_eq_none (by omega)]
  rfl

/-- Claim C4 (code bug): on the database built from the single pair
`([107], [118])`, the record written by `put` sits at offset 4096 with an
8-byte `u32` header (`[1,0,0,0, 1,0,0,0, 107, 118]`), and the iterator
end bound is 4114; but `next` at cursor 4096 reads the key and value at
cursor + 16 and cursor + 17 — zero padding bytes, not the stored key
`[107]` and value `[118]` at cursor + 8 and cursor + 9 — and advances the
cursor by `16 + key_len + val_len` to 4114 instead of by
`8 + key_len + val_len` to 4106. -/
theorem c4_iterator_reads_wrong_offsets :
    ∃ w' c, buildDB [([107], [118])] = some w' ∧ Cdb.new w'.writer = some c ∧
      readExactAt w'.writer 4096 10 = some [1, 0, 0, 0, 1, 0, 0, 0, 107, 118] ∧
      iterEndPos c.header = 4114 ∧
      iterNext c 4096 (iterEndPos c.header) = some (.ok (([0], [0]), 4114)) := by
  obtain ⟨w', tes, pos', hfin, hfinal, htlen, hposU, hposL, hHeadBytes, hrecsBytes,
    hemptyT, hfullT⟩ := finalize_buildW_spec [([107], [118])]
  have hoa : offsetAfter [([107], [118])] = 4114 := by decide
  have hplen : ([([107], [118])] : List (List Nat × List Nat)).length = 1 := rfl
  rw [hoa, hplen] at hposU
  rw [hoa] at hposL
  -- directory entry bounds, as in the lookup theorem
  have htesBound : ∀ te ∈ tes, te.offset < 2 ^ 64 ∧ te.length < 2 ^ 64 := by
    intro te hte
    obtain ⟨t, ht, hget⟩ := List.mem_iff_getElem.mp hte
    have ht256 : t < 256 := by omega
    have hgetD : tes.getD t ⟨0, 0⟩ = te := by
      rw [List.getD_eq_getElem _ _ ht, hget]
    by_cases hcase : (buildW [([107], [118])]).entries_by_table t = []
    · rw [hemptyT t ht256 hcase] at hgetD
      rw [← hgetD]
      simp
    · obtain ⟨slots, ds, p, _, _, hteEq, hple, hpri, _⟩ := hfullT t ht256 hcase
      rw [hteEq] at hgetD
      rw [← hgetD]
      simp only
      rw [hoa] at hple
      omega
  have hCnew : Cdb.new w'.writer = some ⟨w'.writer, tes⟩ := by
    unfold Cdb.new
    rw [readHeader_of_hasBytes w'.writer tes hHeadBytes htlen htesBound]
    rfl
  -- the single put populates exactly subtable 206
  have hent : (buildW [([107], [118])]).entries_by_table
      = fun t => if t = 206 then [⟨177614, 4096⟩] else [] := by
    funext t
    rfl
  have hne : ∀ t, t ≠ 206 → (buildW [([107], [118])]).entries_by_table t = [] := by
    intro t ht
    rw [hent]
    simp [ht]
  have h206 : (buildW [([107], [118])]).entries_by_table 206 ≠ [] := by
    rw [hent]
    simp
  obtain ⟨slots, ds, p, hbuild, hins, hteEq, hple, hpri, hslotbytes⟩ :=
    hfullT 206 (by omega) h206
  have hslen : slots.length = 2 := by
    have := hins.len
    rw [hent] at this
    simpa using this
  have hp : p = 4114 := by
    rw [hoa] at hple
    rw [hslen] at hpri
    omega
  -- the decoded directory is the one-entry table at index 206
  have htes : tes = (List.range 256).map
      (fun t => if t = 206 then (⟨4114, 2⟩ : TableEntry) else ⟨0, 0⟩) := by
    apply List.ext_getElem
    · rw [htlen]
      simp
    · intro i h1 h2
      have hi : i < 256 := by rw [htlen] at h1; exact h1
      have hgd : tes[i] = tes.getD i ⟨0, 0⟩ := by
        rw [List.getD_eq_getElem?_getD, List.getElem?_eq_getElem h1]
        rfl
      rw [hgd, List.getElem_map, List.getElem_range]
      by_cases hc : i = 206
      · subst hc
        rw [hteEq, hp, hslen]
        simp
      · rw [hemptyT i hi (hne i hc)]
        simp [hc]
  have hend : iterEndPos tes = 4114 := by
    rw [htes]
    decide
  -- the record bytes written by put
  have hrl : (⟨4096, [107], [118]⟩ : Rec) ∈ recList [([107], [118])] := by decide
  have hr1 : hasBytes w'.writer 4096 [1, 0, 0, 0, 1, 0, 0, 0, 107, 118] :=
    hrecsBytes ⟨4096, [107], [118]⟩ hrl
  have hread10 : readExactAt w'.writer 4096 10 =
      some [1, 0, 0, 0, 1, 0, 0, 0, 107, 118] :=
    readExactAt_of_hasBytes _ _ _ hr1
  have hr8 : hasBytes w'.writer 4096 [1, 0, 0, 0, 1, 0, 0, 0] :=
    ((hasBytes_append w'.writer 4096 [1, 0, 0, 0, 1, 0, 0, 0] [107, 118]).mp hr1).1
  have hrt : read_tuple w'.writer 4096 = some (1, 1) := by
    unfold read_tuple
    have h8 := readExactAt_of_hasBytes _ _ _ hr8
    rw [show ([1, 0, 0, 0, 1, 0, 0, 0] : List Nat).length = 8 from rfl] at h8
    rw [h8]
    rfl
  -- the sink length covers the slot array, and the pre-slot gap is zero
  have hwlen : 4146 ≤ w'.writer.length := by
    have := hslotbytes.1
    rw [slotsBytes_length, hslen, hp] at this
    omega
  have hblen : (buildW [([107], [118])]).writer.length = 4106 := by
    show ((put newWriter [107] [118]).1).writer.length = 4106
    rw [put_eq newWriter [107] [118] rfl]
    simp only
    rw [writeAt_length, newWriter_writer_length]
    rfl
  have hz : ∀ i, 4106 ≤ i → i < 4114 → byteAt w'.writer i = 0 := by
    intro i hi1 hi2
    exact finalize_gap_zero [([107], [118])] w' hfin i
      (by rw [hblen]; omega) (by rw [hoa]; omega)
  have hkey0 : hasBytes w'.writer 4112 [0] := by
    refine ⟨by simpa using by omega, ?_⟩
    intro j hj
    have hj0 : j = 0 := by simpa using hj
    subst hj0
    rw [show (4112 : Nat) + 0 = 4112 from rfl]
    rw [hz 4112 (by omega) (by omega)]
    rfl
  have hval0 : hasBytes w'.writer 4113 [0] := by
    refine ⟨by simpa using by omega, ?_⟩
    intro j hj
    have hj0 : j = 0 := by simpa using hj
    subst hj0
    rw [show (4113 : Nat) + 0 = 4113 from rfl]
    rw [hz 4113 (by omega) (by omega)]
    rfl
  have hkread : readExactAt w'.writer 4112 1 = some [0] :=
    readExactAt_of_hasBytes _ _ _ hkey0
  have hvread : readExactAt w'.writer 4113 1 = some [0] :=
    readExactAt_of_hasBytes _ _ _ hval0
  refine ⟨w', ⟨w'.writer, tes⟩, hfin, hCnew, hread10, hend, ?_⟩
  show iterNext ⟨w'.writer, tes⟩ 4096 (iterEndPos tes) = some (.ok (([0], [0]), 4114))
  rw [hend]
  unfold iterNext
  rw [if_neg (by omega)]
  simp only
  rw [hrt]
  simp only
  rw [if_neg (by omega)]
  rw [show (4096 : Nat) + 16 = 4112 from rfl, hkread]
  simp only
  rw [show (4112 : Nat) + 1 = 4113 from rfl, hvread]

end Cdb64
